import Mathlib

/-!
Verification of xv6-riscv: physical page allocator and spinlock.

A shallow embedding of `kernel/kalloc.c` and `kernel/spinlock.c`.

* Physical memory is a byte-addressed map; a pointer is a `Nat` below `2^64`,
  and pointer arithmetic that can leave that range is reduced `% 2^64`.
* `kmem` (the lock and the list head) and the per-core descriptors live in the
  kernel image below `end`, so they are separate fields of the state and not
  bytes of the page memory.
* A function that can call `panic` or spin returns an `Outcome`: it returned
  normally, it halted in `panic(msg)` (with the state at the halt), or the
  budget of loop iterations given to the model was used up.
-/

namespace Xv6

/-! ## Configuration constants -/

/-- Page size in bytes (`kalloc.c`: "Allocates whole 4096-byte pages"). -/
def PGSIZE : Nat := 4096

/-- Width of the address space: pointers are `uint64`. -/
def ADDR_MOD : Nat := 2 ^ 64

/-- The two link-time / layout constants `kalloc.c` reads: `end`, the first
address after the kernel image, and `PHYSTOP`, the top of usable memory. -/
structure Config where
  end_ : Nat
  PHYSTOP : Nat
  deriving DecidableEq

/-- Reduction of an address computation to 64 bits. -/
def wrap64 (a : Nat) : Nat := a % ADDR_MOD

/-- Modelled from the spec: the macro `PGROUNDUP` of `riscv.h` (not under
`src/`), "rounding the start address up to the next page boundary", computed
on `uint64`. -/
def PGROUNDUP (sz : Nat) : Nat := wrap64 (sz + PGSIZE - 1) / PGSIZE * PGSIZE

/-- Modelled from the spec: the macro `PGROUNDDOWN` of `riscv.h` (not under
`src/`): the start of the page an address lies in. -/
def PGROUNDDOWN (a : Nat) : Nat := a / PGSIZE * PGSIZE

/-! ## Memory -/

/-- One byte. -/
abbrev Byte := Fin 256

/-- Byte-addressed physical memory. -/
abbrev Mem := Nat → Byte

/-- Conversion of an `int` to `unsigned char`. -/
def byteOf (n : Nat) : Byte := ⟨n % 256, Nat.mod_lt _ (by decide)⟩

/-- Modelled from the spec: `memset(dst, c, n)` of `string.c` (not under
`src/`): "overwrites the entire page with a fixed ... fill pattern": the `n`
bytes from `dst` become `c`, every other byte is kept. -/
def memset (m : Mem) (dst c n : Nat) : Mem :=
  fun a => if dst ≤ a ∧ a < dst + n then byteOf c else m a

/-- Load of a little-endian 64-bit pointer (`r->next` read). -/
def read64 (m : Mem) (a : Nat) : Nat :=
  (m a).val + (m (a + 1)).val * 256 + (m (a + 2)).val * 256 ^ 2
    + (m (a + 3)).val * 256 ^ 3 + (m (a + 4)).val * 256 ^ 4
    + (m (a + 5)).val * 256 ^ 5 + (m (a + 6)).val * 256 ^ 6
    + (m (a + 7)).val * 256 ^ 7

/-- Store of a little-endian 64-bit pointer (`r->next = v`). -/
def write64 (m : Mem) (a v : Nat) : Mem :=
  fun x => if a ≤ x ∧ x < a + 8 then byteOf (v / 256 ^ (x - a)) else m x

/-! ## Spinlock and per-core state -/

/-- The `struct spinlock` of `spinlock.h`. The owner `cpu` is a pointer to a
core descriptor: `none` is the null pointer, `some c` is `&cpus[c]`. -/
structure Spinlock where
  locked : Nat
  name : String
  cpu : Option Nat
  deriving DecidableEq

/-- The part of a core that `spinlock.c` touches: `noff` and `intena` of its
`struct cpu`, and the core's interrupt-enable bit (read by `intr_get`, written
by `intr_off` / `intr_on`). `noff` and `intena` are C `int`s; the nesting depth
never comes near `2^31`, and `noff` is kept as an unbounded integer. -/
structure Cpu where
  noff : Int
  intena : Int
  intr : Bool
  deriving DecidableEq

/-- Result of running a kernel function from a state of type `σ`. -/
inductive Outcome (σ : Type) (α : Type) where
  /-- Returned normally with return value and final state. -/
  | ok (ret : α) (s : σ)
  /-- Called `panic(msg)`; the state is the one at the halt. -/
  | fatal (msg : String) (s : σ)
  /-- The iteration budget of a loop ran out. -/
  | spin

/-- Run `x`; apply `f` to the state it stops in (return or halt). -/
def Outcome.lift {σ τ α : Type} (f : σ → τ) : Outcome σ α → Outcome τ α
  | .ok r s => .ok r (f s)
  | .fatal msg s => .fatal msg (f s)
  | .spin => .spin

/-- Sequencing: run `x`, and when it returns continue with `f`; a halt or an
endless spin of `x` is the outcome of the whole. -/
def Outcome.bind {σ α β : Type} (x : Outcome σ α) (f : α → σ → Outcome σ β) :
    Outcome σ β :=
  match x with
  | .ok r s => f r s
  | .fatal msg s => .fatal msg s
  | .spin => .spin

/-- Function `initlock` of `spinlock.c`. -/
def initlock (_lk : Spinlock) (name : String) : Spinlock :=
  { locked := 0, name := name, cpu := none }

/-- Function `holding` of `spinlock.c`, run on core `c` (`mycpu()` is `&cpus[c]`). -/
def holding (c : Nat) (lk : Spinlock) : Bool :=
  decide (lk.locked ≠ 0) && decide (lk.cpu = some c)

/-- Function `push_off` of `spinlock.c`. -/
def push_off (cpu : Cpu) : Cpu :=
  let old : Int := if cpu.intr then 1 else 0
  let cpu1 : Cpu := { cpu with intr := false }
  let cpu2 : Cpu := if cpu1.noff = 0 then { cpu1 with intena := old } else cpu1
  { cpu2 with noff := cpu2.noff + 1 }

/-- Function `pop_off` of `spinlock.c`. -/
def pop_off (cpu : Cpu) : Outcome Cpu Unit :=
  if cpu.intr then .fatal "pop_off - interruptible" cpu
  else if cpu.noff < 1 then .fatal "pop_off" cpu
  else
    let cpu1 : Cpu := { cpu with noff := cpu.noff - 1 }
    if cpu1.noff = 0 ∧ cpu1.intena ≠ 0 then .ok () { cpu1 with intr := true }
    else .ok () cpu1

/-- The loop `while(__sync_lock_test_and_set(&lk->locked, 1) != 0) ;` of
`acquire`, with no other core running: each iteration swaps 1 into `locked`
and leaves the loop when the old value was 0. `none`: still spinning after
`fuel` iterations. -/
def acquire_spin : Nat → Spinlock → Option Spinlock
  | 0, _ => none
  | fuel + 1, lk =>
    let old := lk.locked
    let lk1 : Spinlock := { lk with locked := 1 }
    if old ≠ 0 then acquire_spin fuel lk1 else some lk1

/-- Function `acquire` of `spinlock.c`, run on core `c` whose descriptor is `cpu`. -/
def acquire (fuel : Nat) (c : Nat) (lk : Spinlock) (cpu : Cpu) :
    Outcome (Spinlock × Cpu) Unit :=
  let cpu1 := push_off cpu
  if holding c lk then .fatal "acquire" (lk, cpu1)
  else
    match acquire_spin fuel lk with
    | none => .spin
    | some lk1 => .ok () ({ lk1 with cpu := some c }, cpu1)

/-- Function `release` of `spinlock.c`, run on core `c` whose descriptor is `cpu`. -/
def release (c : Nat) (lk : Spinlock) (cpu : Cpu) :
    Outcome (Spinlock × Cpu) Unit :=
  if !holding c lk then .fatal "release" (lk, cpu)
  else
    let lk1 : Spinlock := { lk with cpu := none }
    let lk2 : Spinlock := { lk1 with locked := 0 }
    (pop_off cpu).lift fun cpu1 => (lk2, cpu1)

/-! ## The allocator -/

/-- Kernel state seen by `kalloc.c`: page memory, the global `kmem`
(`kmem.lock`, `kmem.freelist`) and the descriptor of every core. -/
structure State where
  mem : Mem
  lock : Spinlock
  freelist : Nat
  cpus : Nat → Cpu

/-- The owner of a page writes into page memory: the state with memory `m`. -/
def State.withMem (s : State) (m : Mem) : State :=
  { mem := m, lock := s.lock, freelist := s.freelist, cpus := s.cpus }

/-- Write the lock and the descriptor of core `c` back into the state. -/
def State.setLock (s : State) (c : Nat) (p : Spinlock × Cpu) : State :=
  { s with lock := p.1, cpus := fun i => if i = c then p.2 else s.cpus i }

/-- The call `acquire(&kmem.lock)` on core `c`. -/
def acquire_kmem (fuel : Nat) (c : Nat) (s : State) : Outcome State Unit :=
  (acquire fuel c s.lock (s.cpus c)).lift (s.setLock c)

/-- The call `release(&kmem.lock)` on core `c`. -/
def release_kmem (c : Nat) (s : State) : Outcome State Unit :=
  (release c s.lock (s.cpus c)).lift (s.setLock c)

/-- Function `kfree` of `kalloc.c`, run on core `c`; `fuel` bounds the spin in
`acquire`. -/
def kfree (cfg : Config) (fuel : Nat) (c : Nat) (pa : Nat) (s : State) :
    Outcome State Unit :=
  if pa % PGSIZE ≠ 0 ∨ pa < cfg.end_ ∨ pa ≥ cfg.PHYSTOP then .fatal "kfree" s
  else
    let s1 : State := { s with mem := memset s.mem pa 1 PGSIZE }
    (acquire_kmem fuel c s1).bind fun _ s2 =>
      let s3 : State := { s2 with mem := write64 s2.mem pa s2.freelist }
      let s4 : State := { s3 with freelist := pa }
      release_kmem c s4

/-- Function `kalloc` of `kalloc.c`, run on core `c`; the return value is the pointer
`r`, 0 when no page is available. The load of `r->next` goes through the total
byte map: the model is meant for a head that is null or a page of memory, and
says nothing about the trap the machine takes on a head that is not memory. -/
def kalloc (fuel : Nat) (c : Nat) (s : State) : Outcome State Nat :=
  (acquire_kmem fuel c s).bind fun _ s1 =>
    let r := s1.freelist
    let s2 : State := if r ≠ 0 then { s1 with freelist := read64 s1.mem r } else s1
    (release_kmem c s2).bind fun _ s3 =>
      let s4 : State := if r ≠ 0 then { s3 with mem := memset s3.mem r 5 PGSIZE } else s3
      .ok r s4

/-- The `for` loop of `freerange`: `n` bounds the number of iterations the
model follows, `p` is the loop variable. -/
def freerange_loop (cfg : Config) (fuel : Nat) (c : Nat) (pa_end : Nat) :
    Nat → Nat → State → Outcome State Unit
  | 0, _, _ => .spin
  | n + 1, p, s =>
    if wrap64 (p + PGSIZE) ≤ pa_end then
      (kfree cfg fuel c p s).bind fun _ s1 =>
        freerange_loop cfg fuel c pa_end n (wrap64 (p + PGSIZE)) s1
    else .ok () s

/-- Function `freerange` of `kalloc.c`. -/
def freerange (cfg : Config) (fuel : Nat) (c : Nat) (n : Nat)
    (pa_start pa_end : Nat) (s : State) : Outcome State Unit :=
  freerange_loop cfg fuel c pa_end n (PGROUNDUP pa_start) s

/-- Function `kinit` of `kalloc.c`, called by `main` on core `c` (core 0). -/
def kinit (cfg : Config) (fuel : Nat) (c : Nat) (n : Nat) (s : State) :
    Outcome State Unit :=
  let s1 : State := { s with lock := initlock s.lock "kmem" }
  freerange cfg fuel c n cfg.end_ cfg.PHYSTOP s1

/-! ## Specification vocabulary -/

/-- The configuration is an address range of a 64-bit machine: `end` is the
address of a linker symbol (never the null pointer), and both bounds lie far
enough below `2^64` that the address computations of `freerange` do not
overflow. -/
def Config.WF (cfg : Config) : Prop :=
  0 < cfg.end_ ∧ cfg.end_ + 2 * PGSIZE ≤ ADDR_MOD ∧ cfg.PHYSTOP + 2 * PGSIZE ≤ ADDR_MOD

instance (cfg : Config) : Decidable cfg.WF :=
  inferInstanceAs (Decidable (0 < cfg.end_ ∧ cfg.end_ + 2 * PGSIZE ≤ ADDR_MOD
    ∧ cfg.PHYSTOP + 2 * PGSIZE ≤ ADDR_MOD))

/-- The address passes the check at the top of `kfree`. -/
def ValidPage (cfg : Config) (pa : Nat) : Prop :=
  pa % PGSIZE = 0 ∧ cfg.end_ ≤ pa ∧ pa < cfg.PHYSTOP

instance (cfg : Config) (pa : Nat) : Decidable (ValidPage cfg pa) :=
  inferInstanceAs (Decidable (pa % PGSIZE = 0 ∧ cfg.end_ ≤ pa ∧ pa < cfg.PHYSTOP))

/-- The address satisfies the precondition as the specification words it:
page-aligned, strictly above `end`, strictly below `PHYSTOP`. -/
def StrictValidPage (cfg : Config) (pa : Nat) : Prop :=
  pa % PGSIZE = 0 ∧ cfg.end_ < pa ∧ pa < cfg.PHYSTOP

instance (cfg : Config) (pa : Nat) : Decidable (StrictValidPage cfg pa) :=
  inferInstanceAs (Decidable (pa % PGSIZE = 0 ∧ cfg.end_ < pa ∧ pa < cfg.PHYSTOP))

/-- Walking the `next` pointers from `h` visits exactly the pages of `L`, in
order, and then reaches the null pointer. -/
def Chain (m : Mem) : Nat → List Nat → Prop
  | h, [] => h = 0
  | h, p :: ps => h = p ∧ p ≠ 0 ∧ Chain m (read64 m p) ps

instance Chain.decidable (m : Mem) : (h : Nat) → (L : List Nat) → Decidable (Chain m h L)
  | h, [] => inferInstanceAs (Decidable (h = 0))
  | h, p :: ps =>
    have : Decidable (Chain m (read64 m p) ps) := Chain.decidable m (read64 m p) ps
    inferInstanceAs (Decidable (h = p ∧ p ≠ 0 ∧ Chain m (read64 m p) ps))

/-- The free-list of the state is the sequence of pages `L` (head first), each
page appears once, and each passes the check of `kfree`. -/
def FreeList (cfg : Config) (s : State) (L : List Nat) : Prop :=
  Chain s.mem s.freelist L ∧ L.Nodup ∧ ∀ p ∈ L, ValidPage cfg p

instance (cfg : Config) (s : State) (L : List Nat) : Decidable (FreeList cfg s L) :=
  inferInstanceAs (Decidable (Chain s.mem s.freelist L ∧ L.Nodup ∧ ∀ p ∈ L, ValidPage cfg p))

/-- Nobody holds `kmem.lock` and the nesting counter of core `c` is not
negative: the condition under which `acquire` and `release` on core `c`
return. -/
def Quiescent (c : Nat) (s : State) : Prop :=
  s.lock.locked = 0 ∧ 0 ≤ (s.cpus c).noff

instance (c : Nat) (s : State) : Decidable (Quiescent c s) :=
  inferInstanceAs (Decidable (s.lock.locked = 0 ∧ 0 ≤ (s.cpus c).noff))

/-- Descriptor of a core after a matched `push_off` / `pop_off` pair. -/
def afterLock (cpu : Cpu) : Cpu :=
  if cpu.noff = 0 then { noff := 0, intena := if cpu.intr then 1 else 0, intr := cpu.intr }
  else { cpu with intr := false }

/-- Lock and descriptor fields after `acquire(&kmem.lock)` ... `release(&kmem.lock)`
on core `c`; memory and list head are supplied by the caller. -/
def unlocked (c : Nat) (s : State) (m : Mem) (h : Nat) : State :=
  { mem := m
    lock := { locked := 0, name := s.lock.name, cpu := none }
    freelist := h
    cpus := fun i => if i = c then afterLock (s.cpus c) else s.cpus i }

/-- State after a `kfree(pa)` that returns. -/
def kfree_post (c : Nat) (pa : Nat) (s : State) : State :=
  unlocked c s (write64 (memset s.mem pa 1 PGSIZE) pa s.freelist) pa

/-- State after a `kalloc()` that returns. -/
def kalloc_post (c : Nat) (s : State) : State :=
  if s.freelist ≠ 0 then
    unlocked c s (memset s.mem s.freelist 5 PGSIZE) (read64 s.mem s.freelist)
  else unlocked c s s.mem s.freelist

/-- The outcome is a halt in `panic(msg)`. -/
def Outcome.isFatal {σ α : Type} (msg : String) : Outcome σ α → Bool
  | .fatal m _ => m == msg
  | _ => false

/-- The outcome is a normal return. -/
def Outcome.isOk {σ α : Type} : Outcome σ α → Bool
  | .ok _ _ => true
  | _ => false

/-- Final state of a normal return. -/
def Outcome.state? {σ α : Type} : Outcome σ α → Option σ
  | .ok _ s => some s
  | _ => none

/-- Return value of a normal return. -/
def Outcome.ret? {σ α : Type} : Outcome σ α → Option α
  | .ok r _ => some r
  | _ => none

/-! ## Concrete states used to exercise the theorems -/

/-- A configuration shaped like the one of xv6 on qemu: the kernel image ends
inside the page at `0x80021000`, usable memory stops at `0x88000000`. -/
def qemuCfg : Config := { end_ := 0x80021d40, PHYSTOP := 0x88000000 }

/-- A small configuration with a page-aligned `end` and room for three pages. -/
def smallCfg : Config := { end_ := 0x1000, PHYSTOP := 0x4000 }

/-- A small configuration whose `PHYSTOP` is not page-aligned: two whole pages
and a trailing partial page starting at `0x3000`. -/
def partialCfg : Config := { end_ := 0x1000, PHYSTOP := 0x3800 }

/-- A core with no lock held and interrupts enabled. -/
def idleCpu : Cpu := { noff := 0, intena := 0, intr := true }

/-- State at boot, before `kinit`: `kmem` lies in zero-initialised storage,
page memory is zero. -/
def bootState : State :=
  { mem := fun _ => 0
    lock := { locked := 0, name := "", cpu := none }
    freelist := 0
    cpus := fun _ => idleCpu }

/-- A state whose free-list is the single page `0x80024000`. -/
def onePageState : State := { bootState with freelist := 0x80024000 }

/-- The `k` pages `p0`, `p0 + PGSIZE`, ... listed from the highest address
down: the order in which a list built by freeing them upwards is walked. -/
def pagesDesc (p0 : Nat) : Nat → List Nat
  | 0 => []
  | k + 1 => (p0 + k * PGSIZE) :: pagesDesc p0 k

/-- Number of whole pages between `PGROUNDUP(end)` and `PHYSTOP`. -/
def npages (cfg : Config) : Nat := (cfg.PHYSTOP - PGROUNDUP cfg.end_) / PGSIZE

/-- Test driver: `k` consecutive `kalloc` calls on core `c`; the return
values in call order and the final state, `none` when a call does not
return. -/
def kalloc_n (fuel : Nat) (c : Nat) : Nat → State → Option (List Nat × State)
  | 0, s => some ([], s)
  | k + 1, s =>
    match kalloc fuel c s with
    | .ok r s1 =>
      match kalloc_n fuel c k s1 with
      | some (rs, s2) => some (r :: rs, s2)
      | none => none
    | _ => none

/-- Free-list invariant on what the code enforces: the walk from the head is
a null-terminated sequence of pages, each page-aligned, at or above `end` and
strictly below `PHYSTOP`. -/
def FreeListInv (cfg : Config) (s : State) : Prop :=
  ∃ L, Chain s.mem s.freelist L ∧ ∀ p ∈ L, ValidPage cfg p

/-- Free-list invariant as the specification words it: as `FreeListInv`, with
every page strictly above `end`. -/
def StrictFreeListInv (cfg : Config) (s : State) : Prop :=
  ∃ L, Chain s.mem s.freelist L ∧ ∀ p ∈ L, StrictValidPage cfg p

/-- The page `pa` is on the free-list of the state. -/
def OnFreeList (s : State) (pa : Nat) : Prop :=
  ∃ L, Chain s.mem s.freelist L ∧ pa ∈ L

/-! ## Vocabulary for the spinlock claims -/

/-- Per-core nesting invariant: the counter is not negative, and interrupts
are disabled whenever the counter is positive. -/
def CpuInv (cpu : Cpu) : Prop :=
  0 ≤ cpu.noff ∧ (0 < cpu.noff → cpu.intr = false)

instance (cpu : Cpu) : Decidable (CpuInv cpu) :=
  inferInstanceAs (Decidable (0 ≤ cpu.noff ∧ (0 < cpu.noff → cpu.intr = false)))

/-- Test driver: `acquire` on each lock of the list in turn, first lock
first, all on core `c`; the locks are distinct objects, one per position. -/
def acquire_all (fuel : Nat) (c : Nat) : List Spinlock → Cpu → Outcome (List Spinlock × Cpu) Unit
  | [], cpu => .ok () ([], cpu)
  | lk :: rest, cpu =>
    match acquire fuel c lk cpu with
    | .ok _ p => (acquire_all fuel c rest p.2).lift fun q => (p.1 :: q.1, q.2)
    | .fatal msg p => .fatal msg (p.1 :: rest, p.2)
    | .spin => .spin

/-- Test driver: `release` on each lock of the list in reverse order, last
lock first, all on core `c`. -/
def release_rev (c : Nat) : List Spinlock → Cpu → Outcome (List Spinlock × Cpu) Unit
  | [], cpu => .ok () ([], cpu)
  | lk :: rest, cpu =>
    match release_rev c rest cpu with
    | .ok _ p => (release c lk p.2).lift fun q => (q.1 :: p.1, q.2)
    | .fatal msg p => .fatal msg (lk :: p.1, p.2)
    | .spin => .spin

/-- A lock as `acquire` on core `c` leaves it. -/
def heldBy (c : Nat) (lk : Spinlock) : Spinlock :=
  { locked := 1, name := lk.name, cpu := some c }

/-- A lock as `release` leaves it. -/
def freed (lk : Spinlock) : Spinlock :=
  { locked := 0, name := lk.name, cpu := none }

/-- The address reached from `h` after following `n` `next` pointers. -/
def walk (m : Mem) (h : Nat) : Nat → Nat
  | 0 => h
  | n + 1 => read64 m (walk m h n)

/-- The address `q` is a node met by the list walk from `h`: it is reached
after some number of `next` steps, none of the nodes up to it being null. -/
def Reach (m : Mem) (h q : Nat) : Prop :=
  ∃ n, walk m h n = q ∧ ∀ k, k ≤ n → walk m h k ≠ 0

/-- The address computations of `freerange` stay below `2^64`. -/
def NoOverflow (cfg : Config) : Prop := cfg.PHYSTOP + 2 * PGSIZE ≤ ADDR_MOD

instance (cfg : Config) : Decidable (NoOverflow cfg) :=
  inferInstanceAs (Decidable (cfg.PHYSTOP + 2 * PGSIZE ≤ ADDR_MOD))

/-- A free lock, as `initlock` leaves it. -/
def freeLock : Spinlock := initlock { locked := 0, name := "", cpu := none } "lk"

/-- A core inside one critical section that was entered with interrupts on. -/
def nestedCpu : Cpu := { noff := 1, intena := 1, intr := false }

/-- A second free lock, a different object from `freeLock`. -/
def freeLock2 : Spinlock := initlock { locked := 0, name := "", cpu := none } "lk2"

/-! ## Memory lemmas -/

theorem byteOf_val (n : Nat) : (byteOf n).val = n % 256 := rfl

theorem read64_write64 (m : Mem) (a v : Nat) (hv : v < 2 ^ 64) :
    read64 (write64 m a v) a = v := by
  simp [read64, write64, byteOf_val]
  omega

theorem read64_congr (m m1 : Mem) (a : Nat)
    (h : ∀ x, a ≤ x → x < a + 8 → m1 x = m x) : read64 m1 a = read64 m a := by
  simp only [read64]
  rw [h a (by omega) (by omega), h (a + 1) (by omega) (by omega),
    h (a + 2) (by omega) (by omega), h (a + 3) (by omega) (by omega),
    h (a + 4) (by omega) (by omega), h (a + 5) (by omega) (by omega),
    h (a + 6) (by omega) (by omega), h (a + 7) (by omega) (by omega)]

theorem read64_lt (m : Mem) (a : Nat) : read64 m a < 2 ^ 64 := by
  simp only [read64]
  have h0 := (m a).isLt
  have h1 := (m (a + 1)).isLt
  have h2 := (m (a + 2)).isLt
  have h3 := (m (a + 3)).isLt
  have h4 := (m (a + 4)).isLt
  have h5 := (m (a + 5)).isLt
  have h6 := (m (a + 6)).isLt
  have h7 := (m (a + 7)).isLt
  omega

/-! ## Lock lemmas -/

theorem pop_off_push_off (cpu : Cpu) (h : 0 ≤ cpu.noff) :
    pop_off (push_off cpu) = .ok () (afterLock cpu) := by
  rcases cpu with ⟨n, e, b⟩
  simp only at h
  by_cases hn : n = 0
  · subst hn
    cases b <;> simp [pop_off, push_off, afterLock]
  · have h1 : ¬ (n + 1 < 1) := by omega
    simp [pop_off, push_off, afterLock, hn, h1]

theorem acquire_free (fuel c : Nat) (lk : Spinlock) (cpu : Cpu) (h : lk.locked = 0) :
    acquire (fuel + 1) c lk cpu
      = .ok () ({ locked := 1, name := lk.name, cpu := some c }, push_off cpu) := by
  simp [acquire, holding, acquire_spin, h]

theorem release_held (c : Nat) (nm : String) (cpu : Cpu) (h : 0 ≤ cpu.noff) :
    release c { locked := 1, name := nm, cpu := some c } (push_off cpu)
      = .ok () ({ locked := 0, name := nm, cpu := none }, afterLock cpu) := by
  simp [release, holding, pop_off_push_off cpu h, Outcome.lift]

theorem kfree_ok (cfg : Config) (fuel c pa : Nat) (s : State)
    (hq : Quiescent c s) (hv : ValidPage cfg pa) :
    kfree cfg (fuel + 1) c pa s = .ok () (kfree_post c pa s) := by
  obtain ⟨hl, hn⟩ := hq
  obtain ⟨h1, h2, h3⟩ := hv
  have hc : ¬ (pa % PGSIZE ≠ 0 ∨ pa < cfg.end_ ∨ pa ≥ cfg.PHYSTOP) := by omega
  simp only [kfree, if_neg hc, acquire_kmem, acquire_free fuel c s.lock (s.cpus c) hl,
    Outcome.lift, Outcome.bind, release_kmem]
  simp only [State.setLock, if_true, release_held c s.lock.name (s.cpus c) hn, Outcome.lift]
  simp only [kfree_post, unlocked, Outcome.ok.injEq, true_and, State.mk.injEq]
  funext i
  by_cases hi : i = c <;> simp [hi]

theorem kalloc_ok (fuel c : Nat) (s : State) (hq : Quiescent c s) :
    kalloc (fuel + 1) c s = .ok s.freelist (kalloc_post c s) := by
  obtain ⟨hl, hn⟩ := hq
  simp only [kalloc, acquire_kmem, acquire_free fuel c s.lock (s.cpus c) hl, Outcome.lift,
    Outcome.bind, release_kmem]
  by_cases h0 : s.freelist = 0
  · simp only [State.setLock, h0, ne_eq, not_true_eq_false, if_false, if_true,
      release_held c s.lock.name (s.cpus c) hn, Outcome.lift]
    simp only [kalloc_post, h0, ne_eq, not_true_eq_false, if_false, unlocked, Outcome.ok.injEq,
      true_and, State.mk.injEq]
    funext i
    by_cases hi : i = c <;> simp [hi]
  · simp only [State.setLock, ne_eq, h0, not_false_eq_true, if_true,
      release_held c s.lock.name (s.cpus c) hn, Outcome.lift]
    simp only [kalloc_post, ne_eq, h0, not_false_eq_true, if_true, unlocked, Outcome.ok.injEq,
      true_and, State.mk.injEq]
    funext i
    by_cases hi : i = c <;> simp [hi]

theorem afterLock_noff (cpu : Cpu) : (afterLock cpu).noff = cpu.noff := by
  unfold afterLock
  split
  · rename_i h; simp [h]
  · rfl

theorem unlocked_quiescent (c : Nat) (s : State) (m : Mem) (h : Nat)
    (hq : Quiescent c s) : Quiescent c (unlocked c s m h) := by
  refine ⟨rfl, ?_⟩
  simp only [unlocked, if_true, afterLock_noff]
  exact hq.2

theorem kfree_post_quiescent (c pa : Nat) (s : State) (hq : Quiescent c s) :
    Quiescent c (kfree_post c pa s) :=
  unlocked_quiescent c s _ _ hq

theorem kalloc_post_quiescent (c : Nat) (s : State) (hq : Quiescent c s) :
    Quiescent c (kalloc_post c s) := by
  unfold kalloc_post
  split
  · exact unlocked_quiescent c s _ _ hq
  · exact unlocked_quiescent c s _ _ hq

/-! ## Free-list lemmas -/

theorem Chain_frame (m m1 : Mem) (L : List Nat) :
    ∀ h : Nat, Chain m h L → (∀ p ∈ L, ∀ x, p ≤ x → x < p + 8 → m1 x = m x) →
      Chain m1 h L := by
  induction L with
  | nil => intro h hc _; exact hc
  | cons p ps ih =>
    intro h hc hfr
    obtain ⟨h1, h2, h3⟩ := hc
    refine ⟨h1, h2, ?_⟩
    rw [read64_congr m m1 p (hfr p (List.mem_cons_self p ps))]
    exact ih _ h3 (fun q hq => hfr q (List.mem_cons_of_mem p hq))

theorem Chain_head (m : Mem) (h : Nat) (L : List Nat) (hc : Chain m h L) :
    h = 0 ∨ h ∈ L := by
  cases L with
  | nil => exact Or.inl hc
  | cons p ps => exact Or.inr (by rw [hc.1]; exact List.mem_cons_self p ps)

theorem memset_outside (m : Mem) (pa c q x : Nat) (hq : q % PGSIZE = 0)
    (hpa : pa % PGSIZE = 0) (hne : q ≠ pa) (h1 : q ≤ x) (h2 : x < q + 8) :
    memset m pa c PGSIZE x = m x := by
  have hno : ¬ (pa ≤ x ∧ x < pa + PGSIZE) := by
    unfold PGSIZE at *
    omega
  simp [memset, hno]

theorem write64_outside (m : Mem) (pa v q x : Nat) (hq : q % PGSIZE = 0)
    (hpa : pa % PGSIZE = 0) (hne : q ≠ pa) (h1 : q ≤ x) (h2 : x < q + 8) :
    write64 m pa v x = m x := by
  have hno : ¬ (pa ≤ x ∧ x < pa + 8) := by
    unfold PGSIZE at *
    omega
  simp [write64, hno]

theorem ValidPage_pos (cfg : Config) (hcfg : cfg.WF) (p : Nat) (hv : ValidPage cfg p) :
    p ≠ 0 := by
  have := hcfg.1
  have := hv.2.1
  omega

theorem ValidPage_lt (cfg : Config) (hcfg : cfg.WF) (p : Nat) (hv : ValidPage cfg p) :
    p < 2 ^ 64 := by
  have h := hcfg.2.2
  have := hv.2.2
  unfold ADDR_MOD PGSIZE at h
  omega

theorem FreeList_head_lt (cfg : Config) (hcfg : cfg.WF) (s : State) (L : List Nat)
    (hL : FreeList cfg s L) : s.freelist < 2 ^ 64 := by
  rcases Chain_head _ _ _ hL.1 with h | h
  · rw [h]; norm_num
  · exact ValidPage_lt cfg hcfg _ (hL.2.2 _ h)

theorem FreeList_kfree (cfg : Config) (hcfg : cfg.WF) (c pa : Nat) (s : State)
    (L : List Nat) (hL : FreeList cfg s L) (hv : ValidPage cfg pa) (hnot : pa ∉ L) :
    FreeList cfg (kfree_post c pa s) (pa :: L) := by
  obtain ⟨hc, hnd, hval⟩ := hL
  refine ⟨⟨rfl, ValidPage_pos cfg hcfg pa hv, ?_⟩, List.nodup_cons.mpr ⟨hnot, hnd⟩, ?_⟩
  · show Chain (write64 (memset s.mem pa 1 PGSIZE) pa s.freelist)
      (read64 (write64 (memset s.mem pa 1 PGSIZE) pa s.freelist) pa) L
    rw [read64_write64 _ _ _ (FreeList_head_lt cfg hcfg s L ⟨hc, hnd, hval⟩)]
    apply Chain_frame s.mem _ L _ hc
    intro q hq x h1 h2
    have hne : q ≠ pa := fun e => hnot (e ▸ hq)
    rw [write64_outside _ pa _ q x (hval q hq).1 hv.1 hne h1 h2,
      memset_outside _ pa _ q x (hval q hq).1 hv.1 hne h1 h2]
  · intro q hq
    rcases List.mem_cons.mp hq with h | h
    · rw [h]; exact hv
    · exact hval q h

theorem FreeList_kalloc (cfg : Config) (c p : Nat) (s : State) (L : List Nat)
    (hL : FreeList cfg s (p :: L)) :
    s.freelist = p ∧ FreeList cfg (kalloc_post c s) L := by
  obtain ⟨⟨h1, h2, h3⟩, hnd, hval⟩ := hL
  have hp0 : s.freelist ≠ 0 := by rw [h1]; exact h2
  refine ⟨h1, ?_, (List.nodup_cons.mp hnd).2, fun q hq => hval q (List.mem_cons_of_mem p hq)⟩
  simp only [kalloc_post, if_pos hp0, unlocked]
  rw [h1]
  apply Chain_frame s.mem _ L _ h3
  intro q hq x hx1 hx2
  have hne : q ≠ p := fun e => (List.nodup_cons.mp hnd).1 (e ▸ hq)
  exact memset_outside _ p _ q x (hval q (List.mem_cons_of_mem p hq)).1
    (hval p (List.mem_cons_self p L)).1 hne hx1 hx2

theorem FreeList_kalloc_nil (cfg : Config) (c : Nat) (s : State)
    (hL : FreeList cfg s []) :
    s.freelist = 0 ∧ FreeList cfg (kalloc_post c s) [] := by
  have h0 : s.freelist = 0 := hL.1
  refine ⟨h0, ?_, List.nodup_nil, fun q hq => absurd hq (List.not_mem_nil q)⟩
  simp only [kalloc_post, h0, ne_eq, not_true_eq_false, if_false, unlocked]
  exact (rfl : (0 : Nat) = 0)

/-! ## Outcomes of `kfree` and `kalloc` -/

theorem Outcome.isFatal_lift {σ τ α : Type} (f : σ → τ) (x : Outcome σ α) (m : String) :
    (x.lift f).isFatal m = x.isFatal m := by
  cases x <;> rfl

theorem Outcome.lift_ok {σ τ α : Type} (f : σ → τ) (x : Outcome σ α) (r : α) (t : τ)
    (h : x.lift f = .ok r t) : ∃ s, x = .ok r s ∧ f s = t := by
  cases x with
  | ok r1 s1 =>
    simp only [Outcome.lift, Outcome.ok.injEq] at h
    exact ⟨s1, by rw [h.1], h.2⟩
  | fatal msg s1 => simp [Outcome.lift] at h
  | spin => simp [Outcome.lift] at h

theorem Outcome.bind_ok {σ α β : Type} (x : Outcome σ α) (f : α → σ → Outcome σ β)
    (b : β) (t : σ) (h : x.bind f = .ok b t) : ∃ a s, x = .ok a s ∧ f a s = .ok b t := by
  cases x with
  | ok r1 s1 => exact ⟨r1, s1, rfl, h⟩
  | fatal msg s1 => simp [Outcome.bind] at h
  | spin => simp [Outcome.bind] at h

theorem Outcome.bind_isFatal_false {σ α β : Type} (x : Outcome σ α)
    (f : α → σ → Outcome σ β) (m : String) (hx : x.isFatal m = false)
    (hf : ∀ a s, (f a s).isFatal m = false) : (x.bind f).isFatal m = false := by
  cases x with
  | ok r1 s1 => exact hf r1 s1
  | fatal msg s1 => exact hx
  | spin => rfl

theorem acquire_fatal_msg (fuel c : Nat) (lk : Spinlock) (cpu : Cpu) :
    (acquire fuel c lk cpu).isFatal "kfree" = false := by
  unfold acquire
  split
  · rfl
  · split <;> rfl

theorem pop_off_fatal_msg (cpu : Cpu) : (pop_off cpu).isFatal "kfree" = false := by
  unfold pop_off
  split
  · rfl
  · split
    · rfl
    · simp only []
      split <;> rfl

theorem release_fatal_msg (c : Nat) (lk : Spinlock) (cpu : Cpu) :
    (release c lk cpu).isFatal "kfree" = false := by
  unfold release
  split
  · rfl
  · simp only [Outcome.isFatal_lift, pop_off_fatal_msg]

theorem kfree_check_fatal (cfg : Config) (fuel c pa : Nat) (s : State) :
    (kfree cfg fuel c pa s).isFatal "kfree" = true
      ↔ (pa % PGSIZE ≠ 0 ∨ pa < cfg.end_ ∨ pa ≥ cfg.PHYSTOP) := by
  by_cases hc : pa % PGSIZE ≠ 0 ∨ pa < cfg.end_ ∨ pa ≥ cfg.PHYSTOP
  · refine ⟨fun _ => hc, fun _ => ?_⟩
    simp only [kfree, if_pos hc]
    rfl
  · refine ⟨fun h => ?_, fun h => absurd h hc⟩
    have hf : (kfree cfg fuel c pa s).isFatal "kfree" = false := by
      simp only [kfree, if_neg hc]
      apply Outcome.bind_isFatal_false
      · simp only [acquire_kmem, Outcome.isFatal_lift, acquire_fatal_msg]
      · intro a s2
        simp only [release_kmem, Outcome.isFatal_lift, release_fatal_msg]
    rw [hf] at h
    cases h

theorem acquire_kmem_ok_inv (fuel c : Nat) (s s1 : State) (r : Unit)
    (h : acquire_kmem fuel c s = .ok r s1) : s1.mem = s.mem ∧ s1.freelist = s.freelist := by
  obtain ⟨p, _, hp⟩ := Outcome.lift_ok _ _ _ _ h
  rw [← hp]
  exact ⟨rfl, rfl⟩

theorem release_kmem_ok_inv (c : Nat) (s s1 : State) (r : Unit)
    (h : release_kmem c s = .ok r s1) : s1.mem = s.mem ∧ s1.freelist = s.freelist := by
  obtain ⟨p, _, hp⟩ := Outcome.lift_ok _ _ _ _ h
  rw [← hp]
  exact ⟨rfl, rfl⟩

theorem kfree_ok_inv (cfg : Config) (fuel c pa : Nat) (s s1 : State) (r : Unit)
    (h : kfree cfg fuel c pa s = .ok r s1) :
    ValidPage cfg pa ∧ s1.mem = write64 (memset s.mem pa 1 PGSIZE) pa s.freelist
      ∧ s1.freelist = pa := by
  by_cases hc : pa % PGSIZE ≠ 0 ∨ pa < cfg.end_ ∨ pa ≥ cfg.PHYSTOP
  · simp [kfree, if_pos hc] at h
  · simp only [kfree, if_neg hc] at h
    obtain ⟨a, s2, h2, h3⟩ := Outcome.bind_ok _ _ _ _ h
    obtain ⟨e1, e2⟩ := acquire_kmem_ok_inv _ _ _ _ _ h2
    obtain ⟨e3, e4⟩ := release_kmem_ok_inv _ _ _ _ h3
    refine ⟨?_, ?_, ?_⟩
    · unfold ValidPage; omega
    · rw [e3]; simp only [e1, e2]
    · rw [e4]

theorem kalloc_ok_inv (fuel c : Nat) (s s1 : State) (r : Nat)
    (h : kalloc fuel c s = .ok r s1) :
    r = s.freelist
      ∧ s1.freelist = (if s.freelist ≠ 0 then read64 s.mem s.freelist else s.freelist)
      ∧ s1.mem = (if s.freelist ≠ 0 then memset s.mem s.freelist 5 PGSIZE else s.mem) := by
  simp only [kalloc] at h
  obtain ⟨a, s2, h2, h3⟩ := Outcome.bind_ok _ _ _ _ h
  obtain ⟨e1, e2⟩ := acquire_kmem_ok_inv _ _ _ _ _ h2
  obtain ⟨a3, s3, h4, h5⟩ := Outcome.bind_ok _ _ _ _ h3
  obtain ⟨e3, e4⟩ := release_kmem_ok_inv _ _ _ _ h4
  simp only [Outcome.ok.injEq] at h5
  obtain ⟨h6, h7⟩ := h5
  rw [e2] at h6 h7 e3 e4
  rw [e1] at e3 e4
  refine ⟨h6.symm, ?_, ?_⟩
  · rw [← h7]
    by_cases h0 : s.freelist = 0
    · simp only [h0, ne_eq, not_true_eq_false, if_false] at e4 ⊢
      rw [e4, e2, h0]
    · simp only [ne_eq, h0, not_false_eq_true, if_true] at e4 ⊢
      exact e4
  · rw [← h7]
    by_cases h0 : s.freelist = 0
    · simp only [h0, ne_eq, not_true_eq_false, if_false] at e3 ⊢
      rw [e3, e1]
    · simp only [ne_eq, h0, not_false_eq_true, if_true] at e3 ⊢
      rw [e3]

theorem PGROUNDUP_spec (a : Nat) (h : a + PGSIZE ≤ ADDR_MOD) :
    PGROUNDUP a % PGSIZE = 0 ∧ a ≤ PGROUNDUP a ∧ PGROUNDUP a < a + PGSIZE := by
  unfold PGROUNDUP wrap64
  unfold PGSIZE ADDR_MOD at *
  have e : (a + 4096 - 1) % 2 ^ 64 = a + 4095 := by
    rw [Nat.mod_eq_of_lt (by omega)]
    omega
  rw [e]
  omega

theorem pagesDesc_succ (p0 : Nat) : ∀ k, pagesDesc p0 (k + 1) = pagesDesc (p0 + PGSIZE) k ++ [p0]
  | 0 => by simp [pagesDesc]
  | k + 1 => by
    have ih := pagesDesc_succ p0 k
    rw [pagesDesc, ih]
    simp only [pagesDesc, List.cons_append, List.cons.injEq, and_true]
    ring

theorem mem_pagesDesc (p0 q : Nat) : ∀ k, q ∈ pagesDesc p0 k ↔ ∃ i, i < k ∧ q = p0 + i * PGSIZE
  | 0 => by simp [pagesDesc]
  | k + 1 => by
    rw [pagesDesc, List.mem_cons, mem_pagesDesc p0 q k]
    constructor
    · rintro (h | ⟨i, hi, h⟩)
      · exact ⟨k, Nat.lt_succ_self k, h⟩
      · exact ⟨i, Nat.lt_succ_of_lt hi, h⟩
    · rintro ⟨i, hi, h⟩
      rcases Nat.lt_succ_iff_lt_or_eq.mp hi with h1 | h1
      · exact Or.inr ⟨i, h1, h⟩
      · exact Or.inl (h1 ▸ h)

theorem length_pagesDesc (p0 : Nat) : ∀ k, (pagesDesc p0 k).length = k
  | 0 => rfl
  | k + 1 => by rw [pagesDesc, List.length_cons, length_pagesDesc p0 k]

theorem pagesDesc_sorted (p0 : Nat) : ∀ k, (pagesDesc p0 k).Pairwise (fun a b => b < a)
  | 0 => List.Pairwise.nil
  | k + 1 => by
    rw [pagesDesc, List.pairwise_cons]
    refine ⟨?_, pagesDesc_sorted p0 k⟩
    intro q hq
    obtain ⟨i, hi, h⟩ := (mem_pagesDesc p0 q k).mp hq
    rw [h]
    unfold PGSIZE
    omega

theorem freerange_loop_ok (cfg : Config) (hcfg : cfg.WF) (fuel c : Nat) :
    ∀ (j n p : Nat) (s : State) (L : List Nat),
      p % PGSIZE = 0 → cfg.end_ ≤ p → p + PGSIZE < ADDR_MOD →
      j = (cfg.PHYSTOP - p) / PGSIZE → j < n → Quiescent c s → FreeList cfg s L →
      (∀ q ∈ L, q < p) →
      ∃ s1, freerange_loop cfg (fuel + 1) c cfg.PHYSTOP n p s = .ok () s1
        ∧ FreeList cfg s1 (pagesDesc p j ++ L) ∧ Quiescent c s1 := by
  intro j
  induction j with
  | zero =>
    intro n p s L hal hend hlt hj hn hq hL hbelow
    obtain ⟨n, rfl⟩ : ∃ n1, n = n1 + 1 := ⟨n - 1, by omega⟩
    have hcond : ¬ (wrap64 (p + PGSIZE) ≤ cfg.PHYSTOP) := by
      unfold wrap64
      rw [Nat.mod_eq_of_lt hlt]
      unfold PGSIZE at *
      omega
    refine ⟨s, ?_, hL, hq⟩
    simp only [freerange_loop, if_neg hcond]
  | succ j ih =>
    intro n p s L hal hend hlt hj hn hq hL hbelow
    obtain ⟨n, rfl⟩ : ∃ n1, n = n1 + 1 := ⟨n - 1, by omega⟩
    have hw : wrap64 (p + PGSIZE) = p + PGSIZE := Nat.mod_eq_of_lt hlt
    have hle : p + PGSIZE ≤ cfg.PHYSTOP := by
      unfold PGSIZE at *
      omega
    have hcond : wrap64 (p + PGSIZE) ≤ cfg.PHYSTOP := by rw [hw]; exact hle
    have hv : ValidPage cfg p := ⟨hal, hend, by unfold PGSIZE at hle; omega⟩
    have hnot : p ∉ L := fun h => Nat.lt_irrefl p (hbelow p h)
    have hL1 := FreeList_kfree cfg hcfg c p s L hL hv hnot
    have hq1 := kfree_post_quiescent c p s hq
    have h2 := hcfg.2.2
    obtain ⟨s1, hs1, hF, hQ⟩ := ih n (p + PGSIZE) (kfree_post c p s) (p :: L)
      (by unfold PGSIZE at *; omega) (by omega)
      (by unfold PGSIZE ADDR_MOD at *; omega)
      (by unfold PGSIZE at *; omega) (by omega) hq1 hL1
      (by
        intro q hq'
        rcases List.mem_cons.mp hq' with h | h
        · rw [h]; unfold PGSIZE; omega
        · have := hbelow q h; omega)
    refine ⟨s1, ?_, ?_, hQ⟩
    · simp only [freerange_loop, if_pos hcond, kfree_ok cfg fuel c p s hq hv, Outcome.bind, hw,
        if_pos hle]
      exact hs1
    · rw [pagesDesc_succ, List.append_assoc]
      exact hF

theorem kinit_ok (cfg : Config) (hcfg : cfg.WF) (fuel c n : Nat) (s : State)
    (h0 : s.freelist = 0) (hn : 0 ≤ (s.cpus c).noff) (hfuel : npages cfg < n) :
    ∃ s1, kinit cfg (fuel + 1) c n s = .ok () s1
      ∧ FreeList cfg s1 (pagesDesc (PGROUNDUP cfg.end_) (npages cfg)) ∧ Quiescent c s1 := by
  obtain ⟨hpos, he, hp⟩ := hcfg
  obtain ⟨r1, r2, r3⟩ := PGROUNDUP_spec cfg.end_ (by unfold PGSIZE at *; omega)
  have := freerange_loop_ok cfg ⟨hpos, he, hp⟩ fuel c (npages cfg) n (PGROUNDUP cfg.end_)
    { s with lock := initlock s.lock "kmem" } [] r1 r2
    (by unfold PGSIZE ADDR_MOD at *; omega) rfl hfuel ⟨rfl, hn⟩
    ⟨h0, List.nodup_nil, fun q hq => absurd hq (List.not_mem_nil q)⟩
    (fun q hq => absurd hq (List.not_mem_nil q))
  rw [List.append_nil] at this
  exact this

theorem Chain_unique (m : Mem) : ∀ (L1 L2 : List Nat) (h : Nat),
    Chain m h L1 → Chain m h L2 → L1 = L2
  | [], [], _, _, _ => rfl
  | [], q :: qs, h, h1, h2 => by
    have e1 : h = 0 := h1
    exact absurd (h2.1.symm.trans e1) h2.2.1
  | p :: ps, [], h, h1, h2 => by
    have e2 : h = 0 := h2
    exact absurd (h1.1.symm.trans e2) h1.2.1
  | p :: ps, q :: qs, h, h1, h2 => by
    have e : p = q := h1.1.symm.trans h2.1
    subst e
    rw [Chain_unique m ps qs (read64 m p) h1.2.2 h2.2.2]

theorem Chain_suffix (m : Mem) (q : Nat) : ∀ (L : List Nat) (h : Nat),
    Chain m h L → q ∈ L → ∃ B, Chain m q (q :: B) ∧ B.length < L.length
  | [], _, _, hq => absurd hq (List.not_mem_nil q)
  | p :: ps, h, hc, hq => by
    rcases List.mem_cons.mp hq with e | hin
    · subst e
      exact ⟨ps, ⟨rfl, hc.2.1, hc.2.2⟩, by simp⟩
    · obtain ⟨B, hB, hlen⟩ := Chain_suffix m q ps (read64 m p) hc.2.2 hin
      exact ⟨B, hB, by simp only [List.length_cons]; omega⟩

theorem Chain_nodup (m : Mem) : ∀ (L : List Nat) (h : Nat), Chain m h L → L.Nodup
  | [], _, _ => List.nodup_nil
  | p :: ps, h, hc => by
    refine List.nodup_cons.mpr ⟨?_, Chain_nodup m ps (read64 m p) hc.2.2⟩
    intro hin
    obtain ⟨B, hB, hlen⟩ := Chain_suffix m p ps (read64 m p) hc.2.2 hin
    have hp : Chain m p (p :: ps) := ⟨rfl, hc.2.1, hc.2.2⟩
    have e := Chain_unique m (p :: B) (p :: ps) p hB hp
    simp only [List.cons.injEq, true_and] at e
    rw [e] at hlen
    exact Nat.lt_irrefl _ hlen

theorem FreeListInv_iff (cfg : Config) (s : State) :
    FreeListInv cfg s ↔ ∃ L, FreeList cfg s L := by
  constructor
  · rintro ⟨L, hc, hv⟩
    exact ⟨L, hc, Chain_nodup _ L _ hc, hv⟩
  · rintro ⟨L, hc, _, hv⟩
    exact ⟨L, hc, hv⟩

theorem FreeList_frame (cfg : Config) (s s1 : State) (L : List Nat) (hL : FreeList cfg s L)
    (hh : s1.freelist = s.freelist)
    (hm : ∀ q ∈ L, ∀ x, q ≤ x → x < q + 8 → s1.mem x = s.mem x) : FreeList cfg s1 L := by
  refine ⟨?_, hL.2.1, hL.2.2⟩
  rw [hh]
  exact Chain_frame s.mem s1.mem L _ hL.1 hm

theorem FreeList_congr (cfg : Config) (s s1 : State) (L : List Nat) (hL : FreeList cfg s L)
    (hh : s1.freelist = s.freelist) (hm : s1.mem = s.mem) : FreeList cfg s1 L :=
  FreeList_frame cfg s s1 L hL hh (fun _ _ x _ _ => by rw [hm])

theorem kalloc_n_ok (cfg : Config) (fuel c : Nat) : ∀ (L1 L2 : List Nat) (s : State),
    Quiescent c s → FreeList cfg s (L1 ++ L2) →
    ∃ s1, kalloc_n (fuel + 1) c L1.length s = some (L1, s1) ∧ FreeList cfg s1 L2
      ∧ Quiescent c s1
  | [], L2, s, hq, hL => ⟨s, rfl, hL, hq⟩
  | p :: ps, L2, s, hq, hL => by
    obtain ⟨e, hL1⟩ := FreeList_kalloc cfg c p s (ps ++ L2) hL
    obtain ⟨s1, h1, h2, h3⟩ := kalloc_n_ok cfg fuel c ps L2 (kalloc_post c s)
      (kalloc_post_quiescent c s hq) hL1
    refine ⟨s1, ?_, h2, h3⟩
    simp only [List.length_cons, kalloc_n, kalloc_ok fuel c s hq, h1, e]

theorem pagesDesc_small :
    pagesDesc (PGROUNDUP smallCfg.end_) (npages smallCfg) = [0x3000, 0x2000, 0x1000] := by
  decide

theorem kalloc_post_nonzero (c : Nat) (s : State) (h : s.freelist ≠ 0) :
    kalloc_post c s
      = unlocked c s (memset s.mem s.freelist 5 PGSIZE) (read64 s.mem s.freelist) := by
  simp only [kalloc_post, ne_eq, h, not_false_eq_true, if_true]

theorem kalloc_post_zero (c : Nat) (s : State) (h : s.freelist = 0) :
    kalloc_post c s = unlocked c s s.mem s.freelist := by
  simp only [kalloc_post, h, ne_eq, not_true_eq_false, if_false]

theorem FreeListInv_kfree (cfg : Config) (hcfg : cfg.WF) (fuel c pa : Nat) (s s1 : State)
    (hinv : FreeListInv cfg s) (hnot : ¬ OnFreeList s pa)
    (hk : kfree cfg fuel c pa s = .ok () s1) : FreeListInv cfg s1 := by
  obtain ⟨L, hF⟩ := (FreeListInv_iff cfg s).mp hinv
  obtain ⟨hv, em, eh⟩ := kfree_ok_inv cfg fuel c pa s s1 () hk
  have hpost := FreeList_kfree cfg hcfg c pa s L hF hv (fun hin => hnot ⟨L, hF.1, hin⟩)
  exact (FreeListInv_iff cfg s1).mpr ⟨pa :: L, FreeList_congr cfg _ s1 _ hpost eh em⟩

theorem FreeListInv_kalloc (cfg : Config) (fuel c r : Nat) (s s1 : State)
    (hinv : FreeListInv cfg s) (hk : kalloc fuel c s = .ok r s1) : FreeListInv cfg s1 := by
  obtain ⟨L, hF⟩ := (FreeListInv_iff cfg s).mp hinv
  obtain ⟨_, eh, em⟩ := kalloc_ok_inv fuel c s s1 r hk
  cases L with
  | nil =>
    obtain ⟨e0, hpost⟩ := FreeList_kalloc_nil cfg c s hF
    refine (FreeListInv_iff cfg s1).mpr ⟨[], FreeList_congr cfg _ s1 _ hpost ?_ ?_⟩
    · rw [eh, kalloc_post_zero c s e0]
      simp only [e0, ne_eq, not_true_eq_false, if_false, unlocked]
    · rw [em, kalloc_post_zero c s e0]
      simp only [e0, ne_eq, not_true_eq_false, if_false, unlocked]
  | cons p ps =>
    obtain ⟨e0, hpost⟩ := FreeList_kalloc cfg c p s ps hF
    have hp0 : s.freelist ≠ 0 := by rw [e0]; exact hF.1.2.1
    refine (FreeListInv_iff cfg s1).mpr ⟨ps, FreeList_congr cfg _ s1 _ hpost ?_ ?_⟩
    · rw [eh, kalloc_post_nonzero c s hp0]
      simp only [ne_eq, hp0, not_false_eq_true, if_true, unlocked]
    · rw [em, kalloc_post_nonzero c s hp0]
      simp only [ne_eq, hp0, not_false_eq_true, if_true, unlocked]


theorem pop_off_not_release (cpu : Cpu) : (pop_off cpu).isFatal "release" = false := by
  unfold pop_off
  split
  · rfl
  · split
    · rfl
    · simp only []
      split <;> rfl

theorem CpuInv_push_off (cpu : Cpu) (h : CpuInv cpu) : CpuInv (push_off cpu) := by
  obtain ⟨h0, _⟩ := h
  have hn : (push_off cpu).noff = cpu.noff + 1 := by
    simp only [push_off]
    split <;> rfl
  have hi : (push_off cpu).intr = false := by
    simp only [push_off]
    split <;> rfl
  exact ⟨by rw [hn]; omega, fun _ => hi⟩

theorem CpuInv_pop_off (cpu cpu1 : Cpu) (h : CpuInv cpu) (hp : pop_off cpu = .ok () cpu1) :
    CpuInv cpu1 := by
  obtain ⟨h0, h1⟩ := h
  unfold pop_off at hp
  split at hp
  · cases hp
  · rename_i hintr
    split at hp
    · cases hp
    · rename_i hlt
      simp only [] at hp
      split at hp
      · rename_i hz
        simp only [Outcome.ok.injEq, true_and] at hp
        rw [← hp]
        refine ⟨by simp only []; omega, fun hpos => ?_⟩
        simp only [] at hpos
        omega
      · simp only [Outcome.ok.injEq, true_and] at hp
        rw [← hp]
        refine ⟨by simp only []; omega, fun _ => ?_⟩
        simpa using hintr

theorem acquire_ok_cpu (fuel c : Nat) (lk lk1 : Spinlock) (cpu cpu1 : Cpu)
    (h : acquire fuel c lk cpu = .ok () (lk1, cpu1)) : cpu1 = push_off cpu := by
  unfold acquire at h
  simp only [] at h
  split at h
  · cases h
  · split at h
    · cases h
    · simp only [Outcome.ok.injEq, Prod.mk.injEq, true_and] at h
      exact h.2.symm

theorem release_ok_cpu (c : Nat) (lk lk1 : Spinlock) (cpu cpu1 : Cpu)
    (h : release c lk cpu = .ok () (lk1, cpu1)) : pop_off cpu = .ok () cpu1 := by
  unfold release at h
  split at h
  · cases h
  · obtain ⟨u, hu, e⟩ := Outcome.lift_ok _ _ _ _ h
    have e2 : u = cpu1 := congrArg Prod.snd e
    rw [hu, e2]

theorem push_off_nested (cpu : Cpu) (hpos : 0 < cpu.noff) (hoff : cpu.intr = false) :
    push_off cpu = { cpu with noff := cpu.noff + 1 } := by
  rcases cpu with ⟨n, e, b⟩
  simp only at hpos hoff
  subst hoff
  have hn : ¬ n = 0 := by omega
  simp [push_off, hn]

theorem afterLock_nested (cpu : Cpu) (hpos : 0 < cpu.noff) (hoff : cpu.intr = false) :
    afterLock cpu = cpu := by
  rcases cpu with ⟨n, e, b⟩
  simp only at hpos hoff
  subst hoff
  have hn : ¬ n = 0 := by omega
  simp [afterLock, hn]

theorem release_heldBy (c : Nat) (lk : Spinlock) (cpu : Cpu) (h : 0 ≤ cpu.noff) :
    release c (heldBy c lk) (push_off cpu) = .ok () (freed lk, afterLock cpu) :=
  release_held c lk.name cpu h

theorem nested_inner (fuel c : Nat) : ∀ (lks : List Spinlock) (cpu : Cpu),
    (∀ lk ∈ lks, lk.locked = 0) → 0 < cpu.noff → cpu.intr = false →
    ∃ cpuN, acquire_all (fuel + 1) c lks cpu = .ok () (lks.map (heldBy c), cpuN) ∧
      cpuN.intr = false ∧ cpuN.noff = cpu.noff + lks.length ∧
      release_rev c (lks.map (heldBy c)) cpuN = .ok () (lks.map freed, cpu)
  | [], cpu, _, _, hoff => ⟨cpu, rfl, hoff, by simp, rfl⟩
  | lk :: rest, cpu, hfree, hpos, hoff => by
    have hp := push_off_nested cpu hpos hoff
    have hpos1 : 0 < (push_off cpu).noff := by rw [hp]; simp only []; omega
    have hoff1 : (push_off cpu).intr = false := by rw [hp]; exact hoff
    obtain ⟨cpuN, ha, hi, hn, hr⟩ := nested_inner fuel c rest (push_off cpu)
      (fun l hl => hfree l (List.mem_cons_of_mem lk hl)) hpos1 hoff1
    refine ⟨cpuN, ?_, hi, ?_, ?_⟩
    · simp only [acquire_all, acquire_free fuel c lk cpu (hfree lk (List.mem_cons_self lk rest)),
        ha, Outcome.lift, List.map_cons]
      rfl
    · rw [hn, hp]
      simp only [List.length_cons]
      push_cast
      omega
    · simp only [List.map_cons, release_rev, hr]
      rw [release_heldBy c lk cpu (Int.le_of_lt hpos), afterLock_nested cpu hpos hoff]
      rfl

theorem read64_memset_five (m : Mem) (p : Nat) :
    read64 (memset m p 5 PGSIZE) p = 0x0505050505050505 := by
  simp [read64, memset, PGSIZE, byteOf]
  rfl

theorem walk_self_loop (m : Mem) (p : Nat) (h : read64 m p = p) : ∀ n, walk m p n = p
  | 0 => rfl
  | n + 1 => by rw [walk, walk_self_loop m p h n, h]

theorem no_Chain_self_loop (m : Mem) (p : Nat) (h : read64 m p = p) (hp : p ≠ 0) :
    ∀ L, ¬ Chain m p L
  | [], hc => hp hc
  | q :: qs, hc => by
    have e : p = q := hc.1
    subst e
    have h3 := hc.2.2
    rw [h] at h3
    exact no_Chain_self_loop m p h hp qs h3

theorem Reach_self_loop (m : Mem) (p q : Nat) (h : read64 m p = p) (hp : p ≠ 0) :
    Reach m p q ↔ q = p := by
  constructor
  · rintro ⟨n, hn, _⟩
    rw [walk_self_loop m p h n] at hn
    exact hn.symm
  · intro e
    subst e
    exact ⟨0, rfl, fun k _ => by rw [walk_self_loop m q h k]; exact hp⟩

theorem double_kfree_state (cfg : Config) (hcfg : cfg.WF) (fuel c P : Nat) (s : State)
    (hq : Quiescent c s) (hv : ValidPage cfg P) :
    kfree cfg (fuel + 1) c P s = .ok () (kfree_post c P s) ∧
      kfree cfg (fuel + 1) c P (kfree_post c P s) = .ok () (kfree_post c P (kfree_post c P s)) ∧
      Quiescent c (kfree_post c P (kfree_post c P s)) ∧
      (kfree_post c P (kfree_post c P s)).freelist = P ∧
      read64 (kfree_post c P (kfree_post c P s)).mem P = P ∧ P ≠ 0 := by
  have q1 := kfree_post_quiescent c P s hq
  refine ⟨kfree_ok cfg fuel c P s hq hv, kfree_ok cfg fuel c P _ q1 hv,
    kfree_post_quiescent c P _ q1, rfl, ?_, ValidPage_pos cfg hcfg P hv⟩
  exact read64_write64 _ P P (ValidPage_lt cfg hcfg P hv)

theorem freerange_loop_returns (cfg : Config) (hno : NoOverflow cfg) (fuel c : Nat) :
    ∀ (j n p : Nat) (s : State),
      p % PGSIZE = 0 → cfg.end_ ≤ p → p + PGSIZE < ADDR_MOD →
      j = (cfg.PHYSTOP - p) / PGSIZE → j < n → Quiescent c s →
      ∃ s1, freerange_loop cfg (fuel + 1) c cfg.PHYSTOP n p s = .ok () s1 ∧ Quiescent c s1 := by
  intro j
  induction j with
  | zero =>
    intro n p s hal hend hlt hj hn hq
    obtain ⟨n, rfl⟩ : ∃ n1, n = n1 + 1 := ⟨n - 1, by omega⟩
    have hcond : ¬ (wrap64 (p + PGSIZE) ≤ cfg.PHYSTOP) := by
      unfold wrap64
      rw [Nat.mod_eq_of_lt hlt]
      unfold PGSIZE at *
      omega
    exact ⟨s, by simp only [freerange_loop, if_neg hcond], hq⟩
  | succ j ih =>
    intro n p s hal hend hlt hj hn hq
    obtain ⟨n, rfl⟩ : ∃ n1, n = n1 + 1 := ⟨n - 1, by omega⟩
    have hw : wrap64 (p + PGSIZE) = p + PGSIZE := Nat.mod_eq_of_lt hlt
    have hle : p + PGSIZE ≤ cfg.PHYSTOP := by
      unfold PGSIZE at *
      omega
    have hcond : wrap64 (p + PGSIZE) ≤ cfg.PHYSTOP := by rw [hw]; exact hle
    have hv : ValidPage cfg p := ⟨hal, hend, by unfold PGSIZE at hle; omega⟩
    have hq1 := kfree_post_quiescent c p s hq
    obtain ⟨s1, hs1, hQ⟩ := ih n (p + PGSIZE) (kfree_post c p s)
      (by unfold PGSIZE at *; omega) (by omega)
      (by unfold NoOverflow PGSIZE ADDR_MOD at *; omega)
      (by unfold PGSIZE at *; omega) (by omega) hq1
    refine ⟨s1, ?_, hQ⟩
    simp only [freerange_loop, if_pos hcond, kfree_ok cfg fuel c p s hq hv, Outcome.bind, hw,
      if_pos hle]
    exact hs1

theorem kinit_returns (cfg : Config) (hle : cfg.end_ ≤ cfg.PHYSTOP) (hno : NoOverflow cfg)
    (fuel c n : Nat) (s : State) (hn : 0 ≤ (s.cpus c).noff) (hfuel : npages cfg < n) :
    ∃ s1, kinit cfg (fuel + 1) c n s = .ok () s1 ∧ Quiescent c s1 := by
  have hno1 : cfg.PHYSTOP + 2 * PGSIZE ≤ ADDR_MOD := hno
  obtain ⟨r1, r2, r3⟩ := PGROUNDUP_spec cfg.end_ (by unfold PGSIZE at *; omega)
  exact freerange_loop_returns cfg hno fuel c (npages cfg) n (PGROUNDUP cfg.end_)
    { s with lock := initlock s.lock "kmem" } r1 r2
    (by unfold PGSIZE ADDR_MOD at *; omega) rfl hfuel ⟨rfl, hn⟩

/-! ## C1: LIFO order -/

/-- C1: from a well-formed free-list `L`, `kfree(P1)` then `kfree(P2)` of two
distinct valid pages not on the list both return, the next two `kalloc` calls
return `P2` and then `P1`, and afterwards the free-list is again the sequence
`L` with the head it had before. -/
theorem kfree_kfree_kalloc_kalloc_lifo (cfg : Config) (hcfg : cfg.WF) (fuel c : Nat)
    (s : State) (L : List Nat) (P1 P2 : Nat) (hq : Quiescent c s)
    (hL : FreeList cfg s L) (h1 : ValidPage cfg P1) (h2 : ValidPage cfg P2)
    (hne : P1 ≠ P2) (hn1 : P1 ∉ L) (hn2 : P2 ∉ L) :
    ∃ s1 s2 s3 s4 : State,
      kfree cfg (fuel + 1) c P1 s = .ok () s1 ∧
      kfree cfg (fuel + 1) c P2 s1 = .ok () s2 ∧
      kalloc (fuel + 1) c s2 = .ok P2 s3 ∧
      kalloc (fuel + 1) c s3 = .ok P1 s4 ∧
      FreeList cfg s4 L ∧ s4.freelist = s.freelist := by
  have q1 := kfree_post_quiescent c P1 s hq
  have q2 := kfree_post_quiescent c P2 _ q1
  have q3 := kalloc_post_quiescent c _ q2
  have f1 := FreeList_kfree cfg hcfg c P1 s L hL h1 hn1
  have hn2' : P2 ∉ P1 :: L := by
    intro h
    rcases List.mem_cons.mp h with h | h
    · exact hne h.symm
    · exact hn2 h
  have f2 := FreeList_kfree cfg hcfg c P2 _ (P1 :: L) f1 h2 hn2'
  obtain ⟨e3, f3⟩ := FreeList_kalloc cfg c P2 _ (P1 :: L) f2
  obtain ⟨e4, f4⟩ := FreeList_kalloc cfg c P1 _ L f3
  refine ⟨kfree_post c P1 s, kfree_post c P2 (kfree_post c P1 s),
    kalloc_post c (kfree_post c P2 (kfree_post c P1 s)),
    kalloc_post c (kalloc_post c (kfree_post c P2 (kfree_post c P1 s))),
    kfree_ok cfg fuel c P1 s hq h1, kfree_ok cfg fuel c P2 _ q1 h2, ?_, ?_, f4, ?_⟩
  · rw [kalloc_ok fuel c _ q2, e3]
  · rw [kalloc_ok fuel c _ q3, e4]
  · rcases Chain_head _ _ _ f4.1 with h | h
    · cases L with
      | nil => rw [h]; exact hL.1.symm
      | cons p ps => exact absurd (f4.1.1.symm ▸ h) f4.1.2.1
    · cases L with
      | nil => exact absurd h (List.not_mem_nil _)
      | cons p ps => rw [f4.1.1, hL.1.1]

theorem kfree_kfree_kalloc_kalloc_lifo_witness :
    ∃ s1 s2 s3 s4 : State,
      kfree qemuCfg 1 0 0x80022000 onePageState = .ok () s1 ∧
      kfree qemuCfg 1 0 0x80023000 s1 = .ok () s2 ∧
      kalloc 1 0 s2 = .ok 0x80023000 s3 ∧
      kalloc 1 0 s3 = .ok 0x80022000 s4 ∧
      FreeList qemuCfg s4 [0x80024000] ∧ s4.freelist = onePageState.freelist :=
  kfree_kfree_kalloc_kalloc_lifo qemuCfg (by decide) 0 0 onePageState [0x80024000]
    0x80022000 0x80023000 (by decide) (by decide) (by decide) (by decide) (by decide)
    (by decide) (by decide)

/-! ## C2: when `kfree` halts -/

/-- C2 as stated fails: the page-aligned address equal to `end` is not strictly
above `end`, yet `kfree` does not halt on it; it returns normally. -/
theorem kfree_at_end_returns :
    0x1000 % PGSIZE = 0 ∧ smallCfg.end_ = 0x1000 ∧ ¬ StrictValidPage smallCfg 0x1000 ∧
      (kfree smallCfg 1 0 0x1000 bootState).isFatal "kfree" = false ∧
      (kfree smallCfg 1 0 0x1000 bootState).isOk = true := by
  decide

/-- C2 amended: `kfree(pa)` halts in `panic("kfree")` exactly when `pa` is not
page-aligned, or `pa < end`, or `pa >= PHYSTOP`; every other address, the
page-aligned `pa = end` included, passes the check and `kfree` returns
normally (with `kmem.lock` free and a non-negative nesting counter). -/
theorem kfree_fatal_iff (cfg : Config) (fuel c pa : Nat) (s : State)
    (hq : Quiescent c s) :
    ((kfree cfg (fuel + 1) c pa s).isFatal "kfree" = true
        ↔ (pa % PGSIZE ≠ 0 ∨ pa < cfg.end_ ∨ pa ≥ cfg.PHYSTOP)) ∧
      (¬ (pa % PGSIZE ≠ 0 ∨ pa < cfg.end_ ∨ pa ≥ cfg.PHYSTOP) →
        kfree cfg (fuel + 1) c pa s = .ok () (kfree_post c pa s)) ∧
      (pa % PGSIZE = 0 → pa = cfg.end_ → pa < cfg.PHYSTOP →
        (kfree cfg (fuel + 1) c pa s).isOk = true) := by
  refine ⟨kfree_check_fatal cfg (fuel + 1) c pa s, ?_, ?_⟩
  · intro hc
    exact kfree_ok cfg fuel c pa s hq ⟨by omega, by omega, by omega⟩
  · intro h1 h2 h3
    rw [kfree_ok cfg fuel c pa s hq ⟨h1, by omega, h3⟩]
    rfl

theorem kfree_fatal_iff_witness :
    Quiescent 0 bootState ∧
      ((kfree smallCfg 1 0 0x1000 bootState).isFatal "kfree" = true
        ↔ (0x1000 % PGSIZE ≠ 0 ∨ 0x1000 < smallCfg.end_ ∨ 0x1000 ≥ smallCfg.PHYSTOP)) ∧
      (¬ (0x1000 % PGSIZE ≠ 0 ∨ 0x1000 < smallCfg.end_ ∨ 0x1000 ≥ smallCfg.PHYSTOP) →
        kfree smallCfg 1 0 0x1000 bootState = .ok () (kfree_post 0 0x1000 bootState)) ∧
      (0x1000 % PGSIZE = 0 → 0x1000 = smallCfg.end_ → 0x1000 < smallCfg.PHYSTOP →
        (kfree smallCfg 1 0 0x1000 bootState).isOk = true) :=
  ⟨by decide, kfree_fatal_iff smallCfg 0 0 0x1000 bootState (by decide)⟩

/-! ## C3: `kalloc` on an empty and on a non-empty list -/

/-- C3: `kalloc` returns (it does not halt); its return value is 0 exactly when
the list head is 0 on entry; in that case the head stays 0 and page memory is
unchanged; otherwise it returns the old head and the new head is the `next`
pointer stored in the old head. -/
theorem kalloc_empty_iff (fuel c : Nat) (s : State) (hq : Quiescent c s) :
    ∃ r s1, kalloc (fuel + 1) c s = .ok r s1 ∧ (r = 0 ↔ s.freelist = 0) ∧
      (s.freelist = 0 → s1.freelist = 0 ∧ s1.mem = s.mem) ∧
      (s.freelist ≠ 0 → r = s.freelist ∧ s1.freelist = read64 s.mem s.freelist) := by
  refine ⟨s.freelist, kalloc_post c s, kalloc_ok fuel c s hq, Iff.rfl, ?_, ?_⟩
  · intro h0
    simp only [kalloc_post, h0, ne_eq, not_true_eq_false, if_false, unlocked, and_self]
  · intro h0
    simp only [kalloc_post, ne_eq, h0, not_false_eq_true, if_true, unlocked, and_self]

theorem kalloc_empty_iff_witness :
    Quiescent 0 onePageState ∧
      ∃ r s1, kalloc 1 0 onePageState = .ok r s1 ∧ (r = 0 ↔ onePageState.freelist = 0) ∧
        (onePageState.freelist = 0 → s1.freelist = 0 ∧ s1.mem = onePageState.mem) ∧
        (onePageState.freelist ≠ 0 → r = onePageState.freelist
          ∧ s1.freelist = read64 onePageState.mem onePageState.freelist) :=
  ⟨by decide, kalloc_empty_iff 0 0 onePageState (by decide)⟩

/-! ## C4: exhaustion -/

/-- C4: when the range holds exactly `K` whole pages, after `kinit` the first
`K` consecutive `kalloc` calls return non-zero, page-aligned addresses inside
the range, pairwise distinct, and the call after them returns 0. -/
theorem kalloc_exhaustion (cfg : Config) (hcfg : cfg.WF) (fuel c n K : Nat) (s : State)
    (h0 : s.freelist = 0) (hn : 0 ≤ (s.cpus c).noff) (hK : npages cfg = K) (hfuel : K < n) :
    ∃ s1 rs sK sE, kinit cfg (fuel + 1) c n s = .ok () s1 ∧
      kalloc_n (fuel + 1) c K s1 = some (rs, sK) ∧ rs.length = K ∧
      (∀ r ∈ rs, r ≠ 0 ∧ r % PGSIZE = 0 ∧ cfg.end_ ≤ r ∧ r + PGSIZE ≤ cfg.PHYSTOP) ∧
      rs.Nodup ∧ kalloc (fuel + 1) c sK = .ok 0 sE := by
  subst hK
  obtain ⟨s1, hk, hF, hq⟩ := kinit_ok cfg hcfg fuel c n s h0 hn hfuel
  have hlen := length_pagesDesc (PGROUNDUP cfg.end_) (npages cfg)
  have hF1 : FreeList cfg s1 (pagesDesc (PGROUNDUP cfg.end_) (npages cfg) ++ []) := by
    rw [List.append_nil]; exact hF
  obtain ⟨sK, hal, hFK, hqK⟩ := kalloc_n_ok cfg fuel c _ [] s1 hq hF1
  rw [hlen] at hal
  obtain ⟨r1, r2, r3⟩ := PGROUNDUP_spec cfg.end_ (by have := hcfg.2.1; unfold PGSIZE at *; omega)
  refine ⟨s1, _, sK, kalloc_post c sK, hk, hal, hlen, ?_, hF.2.1, ?_⟩
  · intro r hr
    obtain ⟨i, hi, e⟩ := (mem_pagesDesc _ r _).mp hr
    refine ⟨ValidPage_pos cfg hcfg r (hF.2.2 r hr), (hF.2.2 r hr).1, (hF.2.2 r hr).2.1, ?_⟩
    unfold npages PGSIZE at *
    omega
  · have e0 : sK.freelist = 0 := hFK.1
    have := kalloc_ok fuel c sK hqK
    rw [e0] at this
    exact this

theorem kalloc_exhaustion_witness :
    smallCfg.WF ∧ bootState.freelist = 0 ∧ 0 ≤ (bootState.cpus 0).noff ∧ npages smallCfg = 3 ∧
      3 < 4 ∧
      ∃ s1 rs sK sE, kinit smallCfg 1 0 4 bootState = .ok () s1 ∧
        kalloc_n 1 0 3 s1 = some (rs, sK) ∧ rs.length = 3 ∧
        (∀ r ∈ rs, r ≠ 0 ∧ r % PGSIZE = 0 ∧ smallCfg.end_ ≤ r ∧ r + PGSIZE ≤ smallCfg.PHYSTOP) ∧
        rs.Nodup ∧ kalloc 1 0 sK = .ok 0 sE :=
  ⟨by decide, by decide, by decide, by decide, by decide,
    kalloc_exhaustion smallCfg (by decide) 0 0 4 3 bootState (by decide) (by decide) (by decide)
      (by decide)⟩

/-! ## C5: the list built by `kinit` -/

/-- C5: from the boot state `kinit` returns, and the free-list it leaves is a
null-terminated sequence `L` that holds each `p = PGROUNDUP(end) + i*PGSIZE`
with `p + PGSIZE <= PHYSTOP` exactly once and nothing else, so
`(PHYSTOP - PGROUNDUP(end)) / PGSIZE` pages (none when
`PHYSTOP < PGROUNDUP(end) + PGSIZE`), in descending address order from the
head; the partial pages at either end are not on it. -/
theorem kinit_freelist (cfg : Config) (hcfg : cfg.WF) (fuel c n : Nat) (s : State)
    (h0 : s.freelist = 0) (hn : 0 ≤ (s.cpus c).noff) (hfuel : npages cfg < n) :
    ∃ s1 L, kinit cfg (fuel + 1) c n s = .ok () s1 ∧ Chain s1.mem s1.freelist L ∧
      L.Nodup ∧
      (∀ q, q ∈ L ↔ ∃ i, q = PGROUNDUP cfg.end_ + i * PGSIZE ∧ q + PGSIZE ≤ cfg.PHYSTOP) ∧
      L.length = (cfg.PHYSTOP - PGROUNDUP cfg.end_) / PGSIZE ∧
      (cfg.PHYSTOP < PGROUNDUP cfg.end_ + PGSIZE → L = []) ∧
      L.Pairwise (fun a b => b < a) ∧
      (cfg.end_ % PGSIZE ≠ 0 → PGROUNDDOWN cfg.end_ ∉ L) ∧
      (cfg.PHYSTOP % PGSIZE ≠ 0 → PGROUNDDOWN cfg.PHYSTOP ∉ L) := by
  obtain ⟨s1, hk, hF, _⟩ := kinit_ok cfg hcfg fuel c n s h0 hn hfuel
  obtain ⟨r1, r2, r3⟩ := PGROUNDUP_spec cfg.end_ (by have := hcfg.2.1; unfold PGSIZE at *; omega)
  have hmem : ∀ q, q ∈ pagesDesc (PGROUNDUP cfg.end_) (npages cfg)
      ↔ ∃ i, q = PGROUNDUP cfg.end_ + i * PGSIZE ∧ q + PGSIZE ≤ cfg.PHYSTOP := by
    intro q
    rw [mem_pagesDesc]
    constructor
    · rintro ⟨i, hi, e⟩
      refine ⟨i, e, ?_⟩
      unfold npages PGSIZE at *
      omega
    · rintro ⟨i, e, hle⟩
      refine ⟨i, ?_, e⟩
      unfold npages PGSIZE at *
      omega
  have hlen := length_pagesDesc (PGROUNDUP cfg.end_) (npages cfg)
  refine ⟨s1, pagesDesc (PGROUNDUP cfg.end_) (npages cfg), hk, hF.1, hF.2.1, hmem, hlen, ?_,
    pagesDesc_sorted _ _, ?_, ?_⟩
  · intro hlt
    apply List.eq_nil_of_length_eq_zero
    rw [hlen]
    unfold npages PGSIZE at *
    omega
  · intro hne hin
    obtain ⟨i, e, _⟩ := (hmem _).mp hin
    unfold PGROUNDDOWN PGSIZE at *
    omega
  · intro hne hin
    obtain ⟨i, e, hle⟩ := (hmem _).mp hin
    unfold PGROUNDDOWN PGSIZE at *
    omega

theorem kinit_freelist_witness :
    smallCfg.WF ∧ bootState.freelist = 0 ∧ 0 ≤ (bootState.cpus 0).noff ∧ npages smallCfg < 4 ∧
      ∃ s1 L, kinit smallCfg 1 0 4 bootState = .ok () s1 ∧ Chain s1.mem s1.freelist L ∧
        L.Nodup ∧
        (∀ q, q ∈ L ↔
          ∃ i, q = PGROUNDUP smallCfg.end_ + i * PGSIZE ∧ q + PGSIZE ≤ smallCfg.PHYSTOP) ∧
        L.length = (smallCfg.PHYSTOP - PGROUNDUP smallCfg.end_) / PGSIZE ∧
        (smallCfg.PHYSTOP < PGROUNDUP smallCfg.end_ + PGSIZE → L = []) ∧
        L.Pairwise (fun a b => b < a) ∧
        (smallCfg.end_ % PGSIZE ≠ 0 → PGROUNDDOWN smallCfg.end_ ∉ L) ∧
        (smallCfg.PHYSTOP % PGSIZE ≠ 0 → PGROUNDDOWN smallCfg.PHYSTOP ∉ L) :=
  ⟨by decide, by decide, by decide, by decide,
    kinit_freelist smallCfg (by decide) 0 0 4 bootState (by decide) (by decide) (by decide)⟩

/-! ## C6: the trailing partial page -/

/-- C6 as stated fails: with `PHYSTOP = 0x3800` (not page-aligned) `kinit`
returns, and the following `kfree` on the start `0x3000` of the trailing
partial page does not halt: it returns normally. -/
theorem kfree_trailing_partial_page_returns :
    partialCfg.PHYSTOP % PGSIZE ≠ 0 ∧ PGROUNDDOWN partialCfg.PHYSTOP = 0x3000 ∧
      ((kinit partialCfg 1 0 3 bootState).bind fun _ s1 =>
        kfree partialCfg 1 0 (PGROUNDDOWN partialCfg.PHYSTOP) s1).isOk = true ∧
      ((kinit partialCfg 1 0 3 bootState).bind fun _ s1 =>
        kfree partialCfg 1 0 (PGROUNDDOWN partialCfg.PHYSTOP) s1).isFatal "kfree" = false := by
  decide

/-- C6 amended: when `PHYSTOP` is not page-aligned, `kinit` leaves the trailing
partial page off the free-list; a following `kfree` on its start
`PGROUNDDOWN(PHYSTOP)` halts in `panic("kfree")` only if that address is below
`end`; when `end <= PGROUNDDOWN(PHYSTOP)` it passes the check of `kfree` and
returns normally, with the partial page pushed on the list. -/
theorem kinit_excludes_trailing_page (cfg : Config) (hcfg : cfg.WF) (fuel c n : Nat)
    (s : State) (h0 : s.freelist = 0) (hn : 0 ≤ (s.cpus c).noff) (hfuel : npages cfg < n)
    (hp : cfg.PHYSTOP % PGSIZE ≠ 0) :
    ∃ s1 L, kinit cfg (fuel + 1) c n s = .ok () s1 ∧ FreeList cfg s1 L ∧
      PGROUNDDOWN cfg.PHYSTOP ∉ L ∧
      ((kfree cfg (fuel + 1) c (PGROUNDDOWN cfg.PHYSTOP) s1).isFatal "kfree" = true
        ↔ PGROUNDDOWN cfg.PHYSTOP < cfg.end_) ∧
      (cfg.end_ ≤ PGROUNDDOWN cfg.PHYSTOP →
        ∃ s2, kfree cfg (fuel + 1) c (PGROUNDDOWN cfg.PHYSTOP) s1 = .ok () s2 ∧
          FreeList cfg s2 (PGROUNDDOWN cfg.PHYSTOP :: L)) := by
  obtain ⟨s1, hk, hF, hq⟩ := kinit_ok cfg hcfg fuel c n s h0 hn hfuel
  have hnot : PGROUNDDOWN cfg.PHYSTOP ∉ pagesDesc (PGROUNDUP cfg.end_) (npages cfg) := by
    intro hin
    obtain ⟨i, hi, e⟩ := (mem_pagesDesc _ _ _).mp hin
    unfold npages PGROUNDDOWN PGSIZE at *
    omega
  refine ⟨s1, _, hk, hF, hnot, ?_, ?_⟩
  · rw [kfree_check_fatal]
    unfold PGROUNDDOWN PGSIZE at *
    omega
  · intro hle
    have hv : ValidPage cfg (PGROUNDDOWN cfg.PHYSTOP) := by
      refine ⟨?_, hle, ?_⟩
      · unfold PGROUNDDOWN PGSIZE; omega
      · unfold PGROUNDDOWN PGSIZE at *; omega
    exact ⟨_, kfree_ok cfg fuel c _ s1 hq hv, FreeList_kfree cfg hcfg c _ s1 _ hF hv hnot⟩

theorem kinit_excludes_trailing_page_witness :
    partialCfg.WF ∧ bootState.freelist = 0 ∧ 0 ≤ (bootState.cpus 0).noff ∧
      npages partialCfg < 3 ∧ partialCfg.PHYSTOP % PGSIZE ≠ 0 ∧
      ∃ s1 L, kinit partialCfg 1 0 3 bootState = .ok () s1 ∧ FreeList partialCfg s1 L ∧
        PGROUNDDOWN partialCfg.PHYSTOP ∉ L ∧
        ((kfree partialCfg 1 0 (PGROUNDDOWN partialCfg.PHYSTOP) s1).isFatal "kfree" = true
          ↔ PGROUNDDOWN partialCfg.PHYSTOP < partialCfg.end_) ∧
        (partialCfg.end_ ≤ PGROUNDDOWN partialCfg.PHYSTOP →
          ∃ s2, kfree partialCfg 1 0 (PGROUNDDOWN partialCfg.PHYSTOP) s1 = .ok () s2 ∧
            FreeList partialCfg s2 (PGROUNDDOWN partialCfg.PHYSTOP :: L)) :=
  ⟨by decide, by decide, by decide, by decide, by decide,
    kinit_excludes_trailing_page partialCfg (by decide) 0 0 3 bootState (by decide) (by decide)
      (by decide) (by decide)⟩

/-! ## C7: the free-list invariant -/

/-- C7 as stated fails: with a page-aligned `end = 0x1000`, `kinit` returns and
the list it leaves contains the page at `end` itself, which is not strictly
above `end`. -/
theorem kinit_breaks_strict_invariant :
    ∃ s1, kinit smallCfg 1 0 4 bootState = .ok () s1 ∧ ¬ StrictFreeListInv smallCfg s1 := by
  obtain ⟨s1, hk, hF, _⟩ :=
    kinit_ok smallCfg (by decide) 0 0 4 bootState (by decide) (by decide) (by decide)
  refine ⟨s1, hk, ?_⟩
  rintro ⟨L, hc, hv⟩
  rw [pagesDesc_small] at hF
  have e := Chain_unique _ _ _ _ hc hF.1
  subst e
  exact absurd (hv 0x1000 (by decide)) (by decide)

/-- C7 amended: the predicate "the walk from the head is a null-terminated
sequence of pages, each page-aligned, at or above `end`, strictly below
`PHYSTOP`" holds for the empty list, holds after `kinit`, and is preserved by
every `kfree` that returns normally on a page not on the list and by every
`kalloc` that returns; with `kmem.lock` free and a non-negative nesting
counter both calls do return. -/
theorem freelist_invariant (cfg : Config) (hcfg : cfg.WF) :
    (∀ s : State, s.freelist = 0 → FreeListInv cfg s) ∧
      (∀ (fuel c n : Nat) (s : State), s.freelist = 0 → 0 ≤ (s.cpus c).noff → npages cfg < n →
        ∃ s1, kinit cfg (fuel + 1) c n s = .ok () s1 ∧ FreeListInv cfg s1) ∧
      (∀ (fuel c pa : Nat) (s s1 : State), FreeListInv cfg s → ¬ OnFreeList s pa →
        kfree cfg fuel c pa s = .ok () s1 → FreeListInv cfg s1) ∧
      (∀ (fuel c r : Nat) (s s1 : State), FreeListInv cfg s →
        kalloc fuel c s = .ok r s1 → FreeListInv cfg s1) ∧
      (∀ (fuel c pa : Nat) (s : State), FreeListInv cfg s → ¬ OnFreeList s pa →
        Quiescent c s → ValidPage cfg pa →
        ∃ s1, kfree cfg (fuel + 1) c pa s = .ok () s1 ∧ FreeListInv cfg s1) ∧
      (∀ (fuel c : Nat) (s : State), FreeListInv cfg s → Quiescent c s →
        ∃ r s1, kalloc (fuel + 1) c s = .ok r s1 ∧ FreeListInv cfg s1) := by
  refine ⟨?_, ?_, FreeListInv_kfree cfg hcfg, FreeListInv_kalloc cfg, ?_, ?_⟩
  · intro s h0
    exact ⟨[], h0, fun q hq => absurd hq (List.not_mem_nil q)⟩
  · intro fuel c n s h0 hn hfuel
    obtain ⟨s1, hk, hF, _⟩ := kinit_ok cfg hcfg fuel c n s h0 hn hfuel
    exact ⟨s1, hk, _, hF.1, hF.2.2⟩
  · intro fuel c pa s hinv hnot hq hv
    exact ⟨_, kfree_ok cfg fuel c pa s hq hv,
      FreeListInv_kfree cfg hcfg (fuel + 1) c pa s _ hinv hnot (kfree_ok cfg fuel c pa s hq hv)⟩
  · intro fuel c s hinv hq
    exact ⟨_, _, kalloc_ok fuel c s hq,
      FreeListInv_kalloc cfg (fuel + 1) c _ s _ hinv (kalloc_ok fuel c s hq)⟩

theorem freelist_invariant_witness :
    smallCfg.WF ∧ FreeListInv smallCfg bootState ∧
      (∃ s1, kinit smallCfg 1 0 4 bootState = .ok () s1 ∧ FreeListInv smallCfg s1) ∧
      (∃ s1, kfree smallCfg 1 0 0x2000 bootState = .ok () s1 ∧ FreeListInv smallCfg s1) ∧
      (∃ r s1, kalloc 1 0 (kfree_post 0 0x2000 bootState) = .ok r s1
        ∧ FreeListInv smallCfg s1) :=
  have h := freelist_invariant smallCfg (by decide)
  have hb : FreeListInv smallCfg bootState := h.1 bootState rfl
  have hnot : ¬ OnFreeList bootState 0x2000 := fun ⟨L, hc, hin⟩ => by
    have e := Chain_unique _ L [] _ hc rfl
    subst e
    exact absurd hin (List.not_mem_nil _)
  have hf : FreeListInv smallCfg (kfree_post 0 0x2000 bootState) :=
    h.2.2.1 1 0 0x2000 bootState _ hb hnot
      (kfree_ok smallCfg 0 0 0x2000 bootState (by decide) (by decide))
  ⟨by decide, hb, h.2.1 0 0 4 bootState rfl (by decide) (by decide),
    h.2.2.2.2.1 0 0 0x2000 bootState hb hnot (by decide) (by decide),
    h.2.2.2.2.2 0 0 _ hf (kfree_post_quiescent 0 0x2000 bootState (by decide))⟩

/-! ## C8: allocation fill -/

/-- C8: a `kalloc` on a non-empty list returns the head page `p` with every
one of its `PGSIZE` bytes equal to 5, the first eight included; 5 is neither 0
nor the fill value 1 of `kfree`, so the page is not all-zero. -/
theorem kalloc_fills_page (fuel c : Nat) (s : State) (hq : Quiescent c s)
    (hne : s.freelist ≠ 0) :
    ∃ s1, kalloc (fuel + 1) c s = .ok s.freelist s1 ∧
      (∀ a, s.freelist ≤ a → a < s.freelist + PGSIZE → s1.mem a = 5) ∧
      (5 : Byte) ≠ 0 ∧ (5 : Byte) ≠ 1 ∧
      ¬ (∀ a, s.freelist ≤ a → a < s.freelist + PGSIZE → s1.mem a = 0) := by
  have hfill : ∀ a, s.freelist ≤ a → a < s.freelist + PGSIZE →
      (kalloc_post c s).mem a = 5 := by
    intro a h1 h2
    have hyes : s.freelist ≤ a ∧ a < s.freelist + PGSIZE := ⟨h1, h2⟩
    simp only [kalloc_post, ne_eq, hne, not_false_eq_true, if_true, unlocked]
    unfold memset
    rw [if_pos hyes]
    rfl
  refine ⟨kalloc_post c s, kalloc_ok fuel c s hq, hfill, by decide, by decide, ?_⟩
  intro hz
  have h5 := hfill s.freelist (Nat.le_refl _) (by unfold PGSIZE; omega)
  rw [hz s.freelist (Nat.le_refl _) (by unfold PGSIZE; omega)] at h5
  exact absurd h5 (by decide)

theorem kalloc_fills_page_witness :
    Quiescent 0 onePageState ∧ onePageState.freelist ≠ 0 ∧
      ∃ s1, kalloc 1 0 onePageState = .ok onePageState.freelist s1 ∧
        (∀ a, onePageState.freelist ≤ a → a < onePageState.freelist + PGSIZE → s1.mem a = 5) ∧
        (5 : Byte) ≠ 0 ∧ (5 : Byte) ≠ 1 ∧
        ¬ (∀ a, onePageState.freelist ≤ a → a < onePageState.freelist + PGSIZE
            → s1.mem a = 0) :=
  ⟨by decide, by decide, kalloc_fills_page 0 0 onePageState (by decide) (by decide)⟩

/-! ## C9: round trip -/

/-- C9: let `kalloc` hand out the head page `p` of a well-formed list and let
the caller overwrite the page with any content; then `kfree(p)` followed by
`kalloc` returns `p` again, every byte of the page is the allocation fill 5
(nothing of the caller's content is left), memory outside the page is
untouched, and the free-list has the head and the sequence of pages it had
before the `kfree`. -/
theorem kalloc_kfree_kalloc_roundtrip (cfg : Config) (hcfg : cfg.WF) (fuel c p : Nat)
    (s : State) (L : List Nat) (hq : Quiescent c s) (hL : FreeList cfg s (p :: L)) :
    ∃ s1, kalloc (fuel + 1) c s = .ok p s1 ∧ FreeList cfg s1 L ∧
      ∀ marker : Mem, (∀ a, (a < p ∨ p + PGSIZE ≤ a) → marker a = s1.mem a) →
        ∃ s2 s3, kfree cfg (fuel + 1) c p (s1.withMem marker) = .ok () s2 ∧
          kalloc (fuel + 1) c s2 = .ok p s3 ∧
          (∀ a, p ≤ a → a < p + PGSIZE → s3.mem a = 5) ∧
          (∀ a, (a < p ∨ p + PGSIZE ≤ a) → s3.mem a = s1.mem a) ∧
          s3.freelist = s1.freelist ∧ FreeList cfg s3 L := by
  obtain ⟨e0, hL1⟩ := FreeList_kalloc cfg c p s L hL
  have hq1 := kalloc_post_quiescent c s hq
  have hv : ValidPage cfg p := hL.2.2 p (List.mem_cons_self p L)
  have hnot : p ∉ L := (List.nodup_cons.mp hL.2.1).1
  refine ⟨kalloc_post c s, by rw [kalloc_ok fuel c s hq, e0], hL1, ?_⟩
  intro marker hm
  have hqm : Quiescent c ((kalloc_post c s).withMem marker) := hq1
  have hLm : FreeList cfg ((kalloc_post c s).withMem marker) L := by
    refine FreeList_frame cfg (kalloc_post c s) _ L hL1 rfl ?_
    intro q hqL x h1 h2
    apply hm
    have hqa := (hL1.2.2 q hqL).1
    have hpa := hv.1
    have hne : q ≠ p := fun e => hnot (e ▸ hqL)
    unfold PGSIZE at *
    omega
  have hL2 := FreeList_kfree cfg hcfg c p _ L hLm hv hnot
  have hq2 := kfree_post_quiescent c p _ hqm
  obtain ⟨e3, hL3⟩ := FreeList_kalloc cfg c p _ L hL2
  have hp0 : p ≠ 0 := ValidPage_pos cfg hcfg p hv
  have hhead : (kfree_post c p ((kalloc_post c s).withMem marker)).freelist = p := rfl
  have hmem3 : (kalloc_post c (kfree_post c p ((kalloc_post c s).withMem marker))).mem
      = memset (write64 (memset marker p 1 PGSIZE) p (kalloc_post c s).freelist) p 5 PGSIZE := by
    rw [kalloc_post_nonzero c _ (by rw [hhead]; exact hp0)]
    rfl
  refine ⟨_, _, kfree_ok cfg fuel c p _ hqm hv, by rw [kalloc_ok fuel c _ hq2, e3], ?_, ?_, ?_,
    hL3⟩
  · intro a h1 h2
    rw [hmem3]
    unfold memset
    rw [if_pos ⟨h1, h2⟩]
    rfl
  · intro a ha
    rw [hmem3, ← hm a ha]
    have hno : ¬ (p ≤ a ∧ a < p + PGSIZE) := by omega
    have hno8 : ¬ (p ≤ a ∧ a < p + 8) := by unfold PGSIZE at ha; omega
    simp only [memset, write64, hno, hno8, if_false]
  · have hh : (kalloc_post c s).freelist < 2 ^ 64 := FreeList_head_lt cfg hcfg _ L hL1
    rw [kalloc_post_nonzero c _ (by rw [hhead]; exact hp0)]
    exact read64_write64 (memset marker p 1 PGSIZE) p (kalloc_post c s).freelist hh

theorem kalloc_kfree_kalloc_roundtrip_witness :
    qemuCfg.WF ∧ Quiescent 0 onePageState ∧ FreeList qemuCfg onePageState [0x80024000] ∧
      ∃ s1, kalloc 1 0 onePageState = .ok 0x80024000 s1 ∧ FreeList qemuCfg s1 [] ∧
        ∀ marker : Mem,
          (∀ a, (a < 0x80024000 ∨ 0x80024000 + PGSIZE ≤ a) → marker a = s1.mem a) →
          ∃ s2 s3, kfree qemuCfg 1 0 0x80024000 (s1.withMem marker) = .ok () s2 ∧
            kalloc 1 0 s2 = .ok 0x80024000 s3 ∧
            (∀ a, 0x80024000 ≤ a → a < 0x80024000 + PGSIZE → s3.mem a = 5) ∧
            (∀ a, (a < 0x80024000 ∨ 0x80024000 + PGSIZE ≤ a) → s3.mem a = s1.mem a) ∧
            s3.freelist = s1.freelist ∧ FreeList qemuCfg s3 [] :=
  ⟨by decide, by decide, by decide,
    kalloc_kfree_kalloc_roundtrip qemuCfg (by decide) 0 0 0x80024000 onePageState []
      (by decide) (by decide)⟩

/-! ## C10: deallocation fill -/

/-- C10: for a valid `pa` and any prior content, `kfree(pa)` returns; then the
first 8-byte word of the page holds the previous list head, the head is `pa`,
every other byte of the page is 1, and no byte outside the page changed. -/
theorem kfree_poisons_page (cfg : Config) (fuel c pa : Nat) (s : State)
    (hq : Quiescent c s) (hv : ValidPage cfg pa) (hh : s.freelist < ADDR_MOD) :
    ∃ s1, kfree cfg (fuel + 1) c pa s = .ok () s1 ∧
      read64 s1.mem pa = s.freelist ∧ s1.freelist = pa ∧
      (∀ a, pa + 8 ≤ a → a < pa + PGSIZE → s1.mem a = 1) ∧
      (∀ a, (a < pa ∨ pa + PGSIZE ≤ a) → s1.mem a = s.mem a) := by
  refine ⟨kfree_post c pa s, kfree_ok cfg fuel c pa s hq hv, ?_, rfl, ?_, ?_⟩
  · exact read64_write64 _ _ _ hh
  · intro a h1 h2
    have hno : ¬ (pa ≤ a ∧ a < pa + 8) := by omega
    have hyes : pa ≤ a ∧ a < pa + PGSIZE := ⟨by omega, h2⟩
    show write64 (memset s.mem pa 1 PGSIZE) pa s.freelist a = 1
    unfold write64 memset
    rw [if_neg hno, if_pos hyes]
    rfl
  · intro a h
    have hno : ¬ (pa ≤ a ∧ a < pa + 8) := by unfold PGSIZE at h; omega
    have hno2 : ¬ (pa ≤ a ∧ a < pa + PGSIZE) := by omega
    show write64 (memset s.mem pa 1 PGSIZE) pa s.freelist a = s.mem a
    unfold write64 memset
    rw [if_neg hno, if_neg hno2]

theorem kfree_poisons_page_witness :
    Quiescent 0 onePageState ∧ ValidPage qemuCfg 0x80022000 ∧
      onePageState.freelist < ADDR_MOD ∧
      ∃ s1, kfree qemuCfg 1 0 0x80022000 onePageState = .ok () s1 ∧
        read64 s1.mem 0x80022000 = onePageState.freelist ∧ s1.freelist = 0x80022000 ∧
        (∀ a, 0x80022000 + 8 ≤ a → a < 0x80022000 + PGSIZE → s1.mem a = 1) ∧
        (∀ a, (a < 0x80022000 ∨ 0x80022000 + PGSIZE ≤ a) → s1.mem a = onePageState.mem a) :=
  ⟨by decide, by decide, by decide,
    kfree_poisons_page qemuCfg 0 0 0x80022000 onePageState (by decide) (by decide) (by decide)⟩

/-! ## C11: nested acquire / release -/

/-- C11: on a core whose nesting state satisfies the per-core invariant, for a
non-empty list of free locks, acquiring them all and then releasing them in
reverse order returns normally at every call; interrupts are off after the
acquires and still off after all releases but the last, and after the last
release the interrupt-enable bit and the nesting counter are what they were
before the first `acquire`. -/
theorem acquire_release_nesting (fuel c : Nat) (lks : List Spinlock) (cpu : Cpu)
    (hN : 1 ≤ lks.length) (hinv : CpuInv cpu) (hfree : ∀ l ∈ lks, l.locked = 0) :
    ∃ cpuN cpuM cpuE,
      acquire_all (fuel + 1) c lks cpu = .ok () (lks.map (heldBy c), cpuN) ∧
      cpuN.intr = false ∧ cpuN.noff = cpu.noff + lks.length ∧
      release_rev c (lks.tail.map (heldBy c)) cpuN = .ok () (lks.tail.map freed, cpuM) ∧
      cpuM.intr = false ∧
      release_rev c (lks.map (heldBy c)) cpuN = .ok () (lks.map freed, cpuE) ∧
      cpuE.intr = cpu.intr ∧ cpuE.noff = cpu.noff := by
  cases lks with
  | nil => simp at hN
  | cons lk rest =>
    obtain ⟨h0, hoff⟩ := hinv
    have hpn : (push_off cpu).noff = cpu.noff + 1 := by
      simp only [push_off]
      split <;> rfl
    have hpi : (push_off cpu).intr = false := by
      simp only [push_off]
      split <;> rfl
    obtain ⟨cpuN, ha, hi, hn, hr⟩ := nested_inner fuel c rest (push_off cpu)
      (fun l hl => hfree l (List.mem_cons_of_mem lk hl)) (by rw [hpn]; omega) hpi
    refine ⟨cpuN, push_off cpu, afterLock cpu, ?_, hi, ?_, hr, hpi, ?_, ?_, afterLock_noff cpu⟩
    · simp only [acquire_all, acquire_free fuel c lk cpu (hfree lk (List.mem_cons_self lk rest)),
        ha, Outcome.lift, List.map_cons]
      rfl
    · rw [hn, hpn]
      simp only [List.length_cons]
      push_cast
      omega
    · simp only [List.map_cons, release_rev, hr]
      rw [release_heldBy c lk cpu h0]
      rfl
    · unfold afterLock
      split
      · rfl
      · rename_i hne
        have hpos : 0 < cpu.noff := by omega
        simp only [hoff hpos]

theorem acquire_release_nesting_witness :
    1 ≤ [freeLock, freeLock2].length ∧ CpuInv idleCpu ∧
      (∀ l ∈ [freeLock, freeLock2], l.locked = 0) ∧
      ∃ cpuN cpuM cpuE,
        acquire_all (0 + 1) 0 [freeLock, freeLock2] idleCpu
          = .ok () ([freeLock, freeLock2].map (heldBy 0), cpuN) ∧
        cpuN.intr = false ∧ cpuN.noff = idleCpu.noff + [freeLock, freeLock2].length ∧
        release_rev 0 ([freeLock, freeLock2].tail.map (heldBy 0)) cpuN
          = .ok () ([freeLock, freeLock2].tail.map freed, cpuM) ∧
        cpuM.intr = false ∧
        release_rev 0 ([freeLock, freeLock2].map (heldBy 0)) cpuN
          = .ok () ([freeLock, freeLock2].map freed, cpuE) ∧
        cpuE.intr = idleCpu.intr ∧ cpuE.noff = idleCpu.noff :=
  ⟨by decide, by decide, by decide,
    acquire_release_nesting 0 0 [freeLock, freeLock2] idleCpu (by decide) (by decide)
      (by decide)⟩

/-! ## C12: when `release` halts -/

/-- C12: `release(lk)` on core `c` halts in `panic("release")` exactly when
`c` is not the holder of `lk`, that is when `lk` is free or its recorded owner
is not `c`; the halt leaves the lock fields and the nesting state of the core
as they were; and a second `release` of a lock right after a `release` that
returned always halts. -/
theorem release_fatal_iff (c : Nat) (lk : Spinlock) (cpu : Cpu) :
    ((release c lk cpu).isFatal "release" = true ↔ holding c lk = false) ∧
      (holding c lk = false ↔ (lk.locked = 0 ∨ lk.cpu ≠ some c)) ∧
      (holding c lk = false → release c lk cpu = .fatal "release" (lk, cpu)) ∧
      (∀ (lk1 : Spinlock) (cpu1 : Cpu), release c lk cpu = .ok () (lk1, cpu1) →
        release c lk1 cpu1 = .fatal "release" (lk1, cpu1)) := by
  have hhold : holding c lk = false ↔ (lk.locked = 0 ∨ lk.cpu ≠ some c) := by
    simp only [holding, Bool.and_eq_false_iff, decide_eq_false_iff_not, ne_eq, not_not]
  have hfatal : ∀ (l : Spinlock) (u : Cpu), holding c l = false →
      release c l u = .fatal "release" (l, u) := by
    intro l u h
    simp only [release, h, Bool.not_false, if_true]
  refine ⟨?_, hhold, hfatal lk cpu, ?_⟩
  · constructor
    · intro h
      by_contra hne
      have hh : holding c lk = true := by simpa using hne
      have hf : (release c lk cpu).isFatal "release" = false := by
        simp only [release, hh, Bool.not_true, Bool.false_eq_true, if_false,
          Outcome.isFatal_lift]
        exact pop_off_not_release cpu
      rw [hf] at h
      cases h
    · intro h
      rw [hfatal lk cpu h]
      rfl
  · intro lk1 cpu1 hok
    apply hfatal
    by_cases hh : holding c lk = true
    · simp only [release, hh, Bool.not_true, Bool.false_eq_true, if_false] at hok
      obtain ⟨u, _, hu⟩ := Outcome.lift_ok _ _ _ _ hok
      have e : lk1 = { locked := 0, name := lk.name, cpu := none } :=
        (congrArg Prod.fst hu).symm
      rw [e]
      rfl
    · have hf : holding c lk = false := by simpa using hh
      rw [hfatal lk cpu hf] at hok
      cases hok

theorem release_fatal_iff_witness :
    release 0 (heldBy 0 freeLock) nestedCpu
        = .ok () (freed freeLock, { noff := 0, intena := 1, intr := true }) ∧
      release 0 (freed freeLock) { noff := 0, intena := 1, intr := true }
        = .fatal "release" (freed freeLock, { noff := 0, intena := 1, intr := true }) :=
  have h : release 0 (heldBy 0 freeLock) nestedCpu
      = .ok () (freed freeLock, { noff := 0, intena := 1, intr := true }) := rfl
  ⟨h, (release_fatal_iff 0 (heldBy 0 freeLock) nestedCpu).2.2.2 _ _ h⟩

/-! ## C13: re-entrant `acquire` -/

/-- C13: when core `c` holds `lk` (held and recorded owner `c`), `acquire(lk)`
on `c` halts in `panic("acquire")` before any test-and-set: it halts with no
loop iteration allowed at all and leaves the lock as it was; when `c` does not
hold `lk`, `acquire` does not halt in `panic("acquire")`. -/
theorem acquire_reentrant_fatal (fuel c : Nat) (lk : Spinlock) (cpu : Cpu) :
    (holding c lk = true →
        acquire fuel c lk cpu = .fatal "acquire" (lk, push_off cpu) ∧
        acquire 0 c lk cpu = .fatal "acquire" (lk, push_off cpu)) ∧
      (holding c lk = false → (acquire fuel c lk cpu).isFatal "acquire" = false) ∧
      (holding c lk = true ↔ (lk.locked ≠ 0 ∧ lk.cpu = some c)) := by
  refine ⟨?_, ?_, ?_⟩
  · intro h
    simp only [acquire, h, if_true, and_self]
  · intro h
    simp only [acquire, h, Bool.false_eq_true, if_false]
    split <;> rfl
  · simp only [holding, Bool.and_eq_true, decide_eq_true_eq, ne_eq]

theorem acquire_reentrant_fatal_witness :
    holding 0 (heldBy 0 freeLock) = true ∧
      acquire 5 0 (heldBy 0 freeLock) nestedCpu
        = .fatal "acquire" (heldBy 0 freeLock, push_off nestedCpu) ∧
      acquire 0 0 (heldBy 0 freeLock) nestedCpu
        = .fatal "acquire" (heldBy 0 freeLock, push_off nestedCpu) ∧
      holding 1 (heldBy 0 freeLock) = false ∧
      (acquire 5 1 (heldBy 0 freeLock) nestedCpu).isFatal "acquire" = false :=
  have h := acquire_reentrant_fatal 5 0 (heldBy 0 freeLock) nestedCpu
  have h1 := acquire_reentrant_fatal 5 1 (heldBy 0 freeLock) nestedCpu
  ⟨by decide, (h.1 (by decide)).1, (h.1 (by decide)).2, by decide, h1.2.1 (by decide)⟩

/-! ## C14: state after `acquire` -/

/-- C14: on a free lock `acquire` on core `c` returns after one test-and-set
(a budget of one loop iteration is enough, and any larger budget gives the
same result) with `locked = 1` and owner `c`; `holding` is true on `c` and
false on every other core; interrupts on `c` are off, the nesting counter is
one more than before, and the saved flag is the interrupt state from before
the call if the counter was 0 and is unchanged otherwise. -/
theorem acquire_post_state (fuel c : Nat) (lk : Spinlock) (cpu : Cpu)
    (hfree : lk.locked = 0) :
    ∃ lk1 cpu1, acquire 1 c lk cpu = .ok () (lk1, cpu1) ∧
      acquire (fuel + 1) c lk cpu = .ok () (lk1, cpu1) ∧
      lk1.locked = 1 ∧ lk1.cpu = some c ∧ holding c lk1 = true ∧
      (∀ d, d ≠ c → holding d lk1 = false) ∧
      cpu1.intr = false ∧ cpu1.noff = cpu.noff + 1 ∧
      (cpu.noff = 0 → cpu1.intena = if cpu.intr then 1 else 0) ∧
      (cpu.noff ≠ 0 → cpu1.intena = cpu.intena) := by
  refine ⟨heldBy c lk, push_off cpu, acquire_free 0 c lk cpu hfree,
    acquire_free fuel c lk cpu hfree, rfl, rfl, ?_, ?_, ?_, ?_, ?_, ?_⟩
  · simp [holding, heldBy]
  · intro d hd
    have hne : ¬ c = d := fun e => hd e.symm
    simp [holding, heldBy, hne]
  · simp only [push_off]
    split <;> rfl
  · simp only [push_off]
    split <;> rfl
  · intro h0
    simp only [push_off, h0, if_true]
  · intro h0
    simp only [push_off, h0, if_false]

theorem acquire_post_state_witness :
    freeLock.locked = 0 ∧
      ∃ lk1 cpu1, acquire 1 3 freeLock idleCpu = .ok () (lk1, cpu1) ∧
        acquire (7 + 1) 3 freeLock idleCpu = .ok () (lk1, cpu1) ∧
        lk1.locked = 1 ∧ lk1.cpu = some 3 ∧ holding 3 lk1 = true ∧
        (∀ d, d ≠ 3 → holding d lk1 = false) ∧
        cpu1.intr = false ∧ cpu1.noff = idleCpu.noff + 1 ∧
        (idleCpu.noff = 0 → cpu1.intena = if idleCpu.intr then 1 else 0) ∧
        (idleCpu.noff ≠ 0 → cpu1.intena = idleCpu.intena) :=
  ⟨by decide, acquire_post_state 7 3 freeLock idleCpu (by decide)⟩

/-! ## C15: the per-core nesting invariant -/

/-- C15: the predicate "the nesting counter is not negative, and interrupts
are disabled whenever it is positive" is preserved by every `push_off`, by
every `pop_off` that returns normally, and so by every `acquire` and every
`release` that returns normally. -/
theorem cpu_invariant_preserved (cpu : Cpu) (hinv : CpuInv cpu) :
    CpuInv (push_off cpu) ∧
      (∀ cpu1, pop_off cpu = .ok () cpu1 → CpuInv cpu1) ∧
      (∀ (fuel c : Nat) (lk lk1 : Spinlock) (cpu1 : Cpu),
        acquire fuel c lk cpu = .ok () (lk1, cpu1) → CpuInv cpu1) ∧
      (∀ (c : Nat) (lk lk1 : Spinlock) (cpu1 : Cpu),
        release c lk cpu = .ok () (lk1, cpu1) → CpuInv cpu1) := by
  refine ⟨CpuInv_push_off cpu hinv, fun cpu1 h => CpuInv_pop_off cpu cpu1 hinv h, ?_, ?_⟩
  · intro fuel c lk lk1 cpu1 h
    have e := acquire_ok_cpu fuel c lk lk1 cpu cpu1 h
    rw [e]
    exact CpuInv_push_off cpu hinv
  · intro c lk lk1 cpu1 h
    exact CpuInv_pop_off cpu cpu1 hinv (release_ok_cpu c lk lk1 cpu cpu1 h)

theorem cpu_invariant_preserved_witness :
    CpuInv nestedCpu ∧ CpuInv (push_off nestedCpu) ∧
      (pop_off nestedCpu = .ok () { noff := 0, intena := 1, intr := true }
        ∧ CpuInv { noff := 0, intena := 1, intr := true }) ∧
      (acquire 1 0 freeLock nestedCpu = .ok () (heldBy 0 freeLock, push_off nestedCpu)
        ∧ CpuInv (push_off nestedCpu)) ∧
      (release 0 (heldBy 0 freeLock) nestedCpu
          = .ok () (freed freeLock, { noff := 0, intena := 1, intr := true })
        ∧ CpuInv { noff := 0, intena := 1, intr := true }) :=
  have h := cpu_invariant_preserved nestedCpu (by decide)
  ⟨by decide, h.1, ⟨rfl, h.2.1 _ rfl⟩, ⟨rfl, h.2.2.1 1 0 freeLock _ _ rfl⟩,
    ⟨rfl, h.2.2.2 0 (heldBy 0 freeLock) _ _ rfl⟩⟩

/-! ## C17: double free -/

/-- C17: for a valid page `P` and any free-list state, two `kfree(P)` in a row
both return (the second is not rejected); afterwards the head is `P` and the
`next` pointer stored in `P` is `P`, so the walk from the head stays at `P`
for ever, never reaches the null pointer, there is no null-terminated list
from the head, and `P` is the only address the walk meets: every other page
that was on the list before is no longer reachable. -/
theorem double_kfree_self_loop (cfg : Config) (hcfg : cfg.WF) (fuel c P : Nat) (s : State)
    (hq : Quiescent c s) (hv : ValidPage cfg P) :
    ∃ s1 s2, kfree cfg (fuel + 1) c P s = .ok () s1 ∧
      kfree cfg (fuel + 1) c P s1 = .ok () s2 ∧
      s2.freelist = P ∧ read64 s2.mem P = P ∧
      (∀ n, walk s2.mem s2.freelist n = P ∧ walk s2.mem s2.freelist n ≠ 0) ∧
      (∀ L, ¬ Chain s2.mem s2.freelist L) ∧
      (∀ q, Reach s2.mem s2.freelist q ↔ q = P) ∧
      (∀ L q, Chain s.mem s.freelist L → q ∈ L → q ≠ P → ¬ Reach s2.mem s2.freelist q) := by
  obtain ⟨k1, k2, _, eh, er, hp⟩ := double_kfree_state cfg hcfg fuel c P s hq hv
  refine ⟨_, _, k1, k2, eh, er, ?_, ?_, ?_, ?_⟩
  · intro n
    rw [eh, walk_self_loop _ P er n]
    exact ⟨rfl, hp⟩
  · rw [eh]
    exact no_Chain_self_loop _ P er hp
  · intro q
    rw [eh]
    exact Reach_self_loop _ P q er hp
  · intro L q _ _ hne hr
    rw [eh] at hr
    exact hne ((Reach_self_loop _ P q er hp).mp hr)

theorem double_kfree_self_loop_witness :
    qemuCfg.WF ∧ Quiescent 0 onePageState ∧ ValidPage qemuCfg 0x80022000 ∧
      ∃ s1 s2, kfree qemuCfg 1 0 0x80022000 onePageState = .ok () s1 ∧
        kfree qemuCfg 1 0 0x80022000 s1 = .ok () s2 ∧
        s2.freelist = 0x80022000 ∧ read64 s2.mem 0x80022000 = 0x80022000 ∧
        (∀ n, walk s2.mem s2.freelist n = 0x80022000 ∧ walk s2.mem s2.freelist n ≠ 0) ∧
        (∀ L, ¬ Chain s2.mem s2.freelist L) ∧
        (∀ q, Reach s2.mem s2.freelist q ↔ q = 0x80022000) ∧
        (∀ L q, Chain onePageState.mem onePageState.freelist L → q ∈ L → q ≠ 0x80022000 →
          ¬ Reach s2.mem s2.freelist q) :=
  ⟨by decide, by decide, by decide,
    double_kfree_self_loop qemuCfg (by decide) 0 0 0x80022000 onePageState (by decide)
      (by decide)⟩

/-! ## C18: a rejected `kfree` changes nothing -/

/-- C18: for an address that fails the check of `kfree`, `kfree` halts in
`panic("kfree")` before any write, whatever the loop budget: the state at the
halt (every byte of memory, the list head, the fields of `kmem.lock`, the
nesting state of every core) is the state on entry. -/
theorem kfree_rejected_unchanged (cfg : Config) (fuel c pa : Nat) (s : State)
    (hbad : pa % PGSIZE ≠ 0 ∨ pa < cfg.end_ ∨ pa ≥ cfg.PHYSTOP) :
    kfree cfg fuel c pa s = .fatal "kfree" s ∧ kfree cfg 0 c pa s = .fatal "kfree" s ∧
      ∀ s1, kfree cfg fuel c pa s = .fatal "kfree" s1 →
        s1.mem = s.mem ∧ s1.freelist = s.freelist ∧ s1.lock = s.lock ∧ s1.cpus = s.cpus := by
  have h : ∀ f, kfree cfg f c pa s = .fatal "kfree" s := by
    intro f
    simp only [kfree, if_pos hbad]
  refine ⟨h fuel, h 0, ?_⟩
  intro s1 h1
  rw [h fuel] at h1
  simp only [Outcome.fatal.injEq, true_and] at h1
  rw [← h1]
  exact ⟨rfl, rfl, rfl, rfl⟩

theorem kfree_rejected_unchanged_witness :
    (0x80022800 % PGSIZE ≠ 0 ∨ 0x80022800 < qemuCfg.end_ ∨ 0x80022800 ≥ qemuCfg.PHYSTOP) ∧
      kfree qemuCfg 1 0 0x80022800 onePageState = .fatal "kfree" onePageState ∧
      kfree qemuCfg 0 0 0x80022800 onePageState = .fatal "kfree" onePageState ∧
      ∀ s1, kfree qemuCfg 1 0 0x80022800 onePageState = .fatal "kfree" s1 →
        s1.mem = onePageState.mem ∧ s1.freelist = onePageState.freelist
          ∧ s1.lock = onePageState.lock ∧ s1.cpus = onePageState.cpus :=
  ⟨by decide, kfree_rejected_unchanged qemuCfg 1 0 0x80022800 onePageState (by decide)⟩

/-! ## C19: allocation after a double free -/

/-- C19: for a valid page `P`, after `kfree(P); kfree(P)` the next two
`kalloc` calls both return `P`; after the second the list head is the word
`0x0505050505050505` read back from the page filled by the first `kalloc`; it
is neither 0 nor page-aligned, so the free-list invariant does not hold, and
`kalloc` does not report exhaustion: neither call returns 0 and the head left
behind is not the null pointer. -/
theorem double_kfree_then_kalloc (cfg : Config) (hcfg : cfg.WF) (fuel c P : Nat) (s : State)
    (hq : Quiescent c s) (hv : ValidPage cfg P) :
    ∃ s1 s2 s3 s4, kfree cfg (fuel + 1) c P s = .ok () s1 ∧
      kfree cfg (fuel + 1) c P s1 = .ok () s2 ∧
      kalloc (fuel + 1) c s2 = .ok P s3 ∧ kalloc (fuel + 1) c s3 = .ok P s4 ∧
      s4.freelist = read64 s3.mem P ∧ s4.freelist = 0x0505050505050505 ∧
      s4.freelist ≠ 0 ∧ s4.freelist % PGSIZE ≠ 0 ∧ ¬ FreeListInv cfg s4 ∧ P ≠ 0 := by
  obtain ⟨k1, k2, q2, eh, er, hp⟩ := double_kfree_state cfg hcfg fuel c P s hq hv
  have h2 : (kfree_post c P (kfree_post c P s)).freelist ≠ 0 := by rw [eh]; exact hp
  have q3 := kalloc_post_quiescent c _ q2
  have e3 : (kalloc_post c (kfree_post c P (kfree_post c P s))).freelist = P := by
    rw [kalloc_post_nonzero c _ h2]
    show read64 (kfree_post c P (kfree_post c P s)).mem
      (kfree_post c P (kfree_post c P s)).freelist = P
    rw [eh, er]
  have m3 : (kalloc_post c (kfree_post c P (kfree_post c P s))).mem
      = memset (kfree_post c P (kfree_post c P s)).mem P 5 PGSIZE := by
    rw [kalloc_post_nonzero c _ h2, eh]
    rfl
  have h3 : (kalloc_post c (kfree_post c P (kfree_post c P s))).freelist ≠ 0 := by
    rw [e3]; exact hp
  have e4 : (kalloc_post c (kalloc_post c (kfree_post c P (kfree_post c P s)))).freelist
      = read64 (kalloc_post c (kfree_post c P (kfree_post c P s))).mem P := by
    rw [kalloc_post_nonzero c _ h3, e3]
    rfl
  have e5 : (kalloc_post c (kalloc_post c (kfree_post c P (kfree_post c P s)))).freelist
      = 0x0505050505050505 := by
    rw [e4, m3, read64_memset_five]
  refine ⟨_, _, _, _, k1, k2, ?_, ?_, e4, e5, ?_, ?_, ?_, hp⟩
  · rw [kalloc_ok fuel c _ q2, eh]
  · rw [kalloc_ok fuel c _ q3, e3]
  · rw [e5]; decide
  · rw [e5]; decide
  · rintro ⟨L, hc, hval⟩
    rw [e5] at hc
    cases L with
    | nil =>
      have h0 : (0x0505050505050505 : Nat) = 0 := hc
      exact absurd h0 (by decide)
    | cons p ps =>
      have hal : p % PGSIZE = 0 := (hval p (List.mem_cons_self p ps)).1
      have hpe : (0x0505050505050505 : Nat) = p := hc.1
      rw [← hpe] at hal
      exact absurd hal (by decide)

theorem double_kfree_then_kalloc_witness :
    qemuCfg.WF ∧ Quiescent 0 onePageState ∧ ValidPage qemuCfg 0x80022000 ∧
      ∃ s1 s2 s3 s4, kfree qemuCfg 1 0 0x80022000 onePageState = .ok () s1 ∧
        kfree qemuCfg 1 0 0x80022000 s1 = .ok () s2 ∧
        kalloc 1 0 s2 = .ok 0x80022000 s3 ∧ kalloc 1 0 s3 = .ok 0x80022000 s4 ∧
        s4.freelist = read64 s3.mem 0x80022000 ∧ s4.freelist = 0x0505050505050505 ∧
        s4.freelist ≠ 0 ∧ s4.freelist % PGSIZE ≠ 0 ∧ ¬ FreeListInv qemuCfg s4 ∧
        0x80022000 ≠ 0 :=
  ⟨by decide, by decide, by decide,
    double_kfree_then_kalloc qemuCfg (by decide) 0 0 0x80022000 onePageState (by decide)
      (by decide)⟩

/-! ## C20: `kinit` never halts -/

/-- C20: for a configuration with `end <= PHYSTOP` and no address overflow,
started on a core whose nesting state satisfies the per-core invariant,
`kinit` returns normally once the model follows the `freerange` loop for more
iterations than there are whole pages: the loop terminates and no `panic` is
reached. Every address the loop passes to `kfree` satisfies the check of
`kfree`, and `kfree` on it, from any state with `kmem.lock` free and a
non-negative counter, returns (so `acquire`, `release` and `pop_off` inside it
pass their checks) and leaves such a state again. -/
theorem kinit_never_halts (cfg : Config) (hle : cfg.end_ ≤ cfg.PHYSTOP)
    (hno : NoOverflow cfg) (fuel c n : Nat) (s : State) (hinv : CpuInv (s.cpus c))
    (hfuel : npages cfg < n) :
    (∃ s1, kinit cfg (fuel + 1) c n s = .ok () s1) ∧
      (∀ msg, (kinit cfg (fuel + 1) c n s).isFatal msg = false) ∧
      (∀ i, i < npages cfg → ValidPage cfg (PGROUNDUP cfg.end_ + i * PGSIZE)) ∧
      (∀ i s2, i < npages cfg → Quiescent c s2 →
        ∃ s3, kfree cfg (fuel + 1) c (PGROUNDUP cfg.end_ + i * PGSIZE) s2 = .ok () s3
          ∧ Quiescent c s3) := by
  obtain ⟨s1, hk, _⟩ := kinit_returns cfg hle hno fuel c n s hinv.1 hfuel
  have hno1 : cfg.PHYSTOP + 2 * PGSIZE ≤ ADDR_MOD := hno
  obtain ⟨r1, r2, r3⟩ := PGROUNDUP_spec cfg.end_ (by unfold PGSIZE at *; omega)
  have hvalid : ∀ i, i < npages cfg → ValidPage cfg (PGROUNDUP cfg.end_ + i * PGSIZE) := by
    intro i hi
    refine ⟨?_, ?_, ?_⟩
    · unfold PGSIZE at *; omega
    · omega
    · unfold npages PGSIZE at *; omega
  refine ⟨⟨s1, hk⟩, ?_, hvalid, ?_⟩
  · intro msg
    rw [hk]
    rfl
  · intro i s2 hi hq2
    exact ⟨_, kfree_ok cfg fuel c _ s2 hq2 (hvalid i hi), kfree_post_quiescent c _ s2 hq2⟩

theorem kinit_never_halts_witness :
    smallCfg.end_ ≤ smallCfg.PHYSTOP ∧ NoOverflow smallCfg ∧ CpuInv (bootState.cpus 0) ∧
      npages smallCfg < 4 ∧
      (∃ s1, kinit smallCfg 1 0 4 bootState = .ok () s1) ∧
      (∀ msg, (kinit smallCfg 1 0 4 bootState).isFatal msg = false) ∧
      (∀ i, i < npages smallCfg → ValidPage smallCfg (PGROUNDUP smallCfg.end_ + i * PGSIZE)) ∧
      (∀ i s2, i < npages smallCfg → Quiescent 0 s2 →
        ∃ s3, kfree smallCfg 1 0 (PGROUNDUP smallCfg.end_ + i * PGSIZE) s2 = .ok () s3
          ∧ Quiescent 0 s3) :=
  ⟨by decide, by decide, by decide, by decide,
    kinit_never_halts smallCfg (by decide) (by decide) 0 0 4 bootState (by decide) (by decide)⟩

end Xv6
